import Mathlib

/-!
Verification of the hex utility's segment / segment-collection / codec core.

The definitions below are a shallow embedding of the Python sources:
  - src/segment.py   (class Segment)
  - src/segments.py  (class Segments)
  - src/memory.py    (class Memory and the Intel Hex / Motorola S codecs)

Python byte strings are modelled as `List Nat` (each byte < 256), addresses as
`Nat` (they are validated non-negative at construction; the constructor itself
takes an `Int` so that the negative-address check of `Segment._validate` is
representable).  Exceptions are modelled with `Except`: an error value carries
the same information the Python exception object carries, and -- for
`Segment.add`, whose receiver mutates in place -- the state of the receiver at
the moment the exception is raised.
-/

deriving instance DecidableEq for Except

namespace Hex

/-- A memory segment: consecutively defined bytes with a starting address
(src/segment.py, class `Segment`). -/
structure Segment where
  addrlo : Nat
  data : List Nat
deriving Repr, DecidableEq

/-- End address (exclusive) of a segment (property `Segment.addrhi`). -/
def Segment.addrhi (s : Segment) : Nat := s.addrlo + s.data.length

/-- Number of bytes in the segment (property `Segment.size`). -/
def Segment.size (s : Segment) : Nat := s.data.length

/-- Errors raised by the embedded code.  `valueError` stands for the
`ValueError` raised by `Segment._validate`; the others mirror the exception
classes of segment.py and memory.py. -/
inductive HexErr where
  | valueError
  | dataCollision (address : Nat) (data_old : Nat) (data_new : Nat)
  | nonSequentialData
  | checksumError (expected : Nat) (actual : Nat)
  | recordLengthError (expected : Int) (actual : Nat)
  | badRecordTypeError (rectype : Nat)
  | recordTypeLengthError (rectype : Nat) (expected : Nat) (actual : Nat)
deriving Repr, DecidableEq

/-- The address of the last byte that `Segment._validate` checks:
`addrlo + (datalen - 1 if datalen > 0 else 0)`.  `Nat` subtraction gives the
same value because `len - 1 = 0` when `len = 0`. -/
def segAddrlast (addrlo len : Nat) : Nat := addrlo + (len - 1)

/-- `Segment._validate` for a non-negative stored address: raises `ValueError`
iff the last used address needs more than 32 bits (`bit_length() > 32`, i.e.
is `>= 2^32`). -/
def validateAddr (addrlo len : Nat) : Except HexErr Unit :=
  if 2 ^ 32 ≤ segAddrlast addrlo len then .error .valueError else .ok ()

/-- `Segment.__init__(data, addrlo)` for the byte-construction path: the field
`_data` starts as the empty byte string, the `addrlo` setter runs (negative
check, then `_validate` with empty data), then the `data` setter runs
(`_validate` with the real data). -/
def mkSegment (data : List Nat) (addrlo : Int) : Except HexErr Segment :=
  if addrlo < 0 then .error .valueError
  else
    match validateAddr addrlo.toNat 0 with
    | .error e => .error e
    | .ok _ =>
      match validateAddr addrlo.toNat data.length with
      | .error e => .error e
      | .ok _ => .ok ⟨addrlo.toNat, data⟩

/-- The `data` property setter: stores the new bytes, then `_validate`; on
failure the receiver has already been mutated, so the error carries the
mutated segment. -/
def Segment.setData (s : Segment) (d : List Nat) : Except (HexErr × Segment) Segment :=
  if 2 ^ 32 ≤ segAddrlast s.addrlo d.length then .error (.valueError, ⟨s.addrlo, d⟩)
  else .ok ⟨s.addrlo, d⟩

/-- The `addrlo` property setter for a non-negative value (in `Segment.add`
the assigned value is always another segment's validated address). -/
def Segment.setAddrlo (s : Segment) (a : Nat) : Except (HexErr × Segment) Segment :=
  if 2 ^ 32 ≤ segAddrlast a s.data.length then .error (.valueError, ⟨a, s.data⟩)
  else .ok ⟨a, s.data⟩

/-- The `addrlo` property setter for an arbitrary integer, as run by
`segment.addrlo = value`: `_addrlo` is assigned first (so on failure the
mutated field can hold a negative value, which `Segment` cannot, hence the
`Int × List Nat` error state), then `_validate` raises `ValueError` for a
negative address or a last used address of more than 32 bits.
`Segment.setAddrlo` is the restriction of this map to the non-negative
addresses assigned inside `Segment.add`. -/
def Segment.setAddrloInt (s : Segment) (a : Int) :
    Except (HexErr × Int × List Nat) Segment :=
  if a < 0 then .error (.valueError, a, s.data)
  else if 2 ^ 32 ≤ segAddrlast a.toNat s.data.length then .error (.valueError, a, s.data)
  else .ok ⟨a.toNat, s.data⟩

/-- `Segment.overlaps`: true iff the half-open address ranges intersect. -/
def Segment.overlaps (s seg : Segment) : Bool :=
  decide (seg.addrlo < s.addrhi) && decide (s.addrlo < seg.addrhi)

/-- `Segment.isadjacent`: true iff one segment starts exactly where the other
ends. -/
def Segment.isadjacent (s seg : Segment) : Bool :=
  decide (seg.addrlo = s.addrhi) || decide (s.addrlo = seg.addrhi)

/-- `Segment.subsegment(addrlo, addrhi)`: slice of the segment clamped to its
own range.  The Python slice `data[offsetlo:offsethi]` is
`(data.take offsethi).drop offsetlo`. -/
def Segment.subsegment (s : Segment) (addrlo addrhi : Nat) : Segment :=
  let offsetlo := if addrlo < s.addrlo then 0 else addrlo - s.addrlo
  let offsethi :=
    if addrhi < s.addrlo then 0
    else if addrhi < s.addrhi then addrhi - s.addrlo
    else s.size
  if offsethi ≤ offsetlo then ⟨0, []⟩
  else ⟨max addrlo s.addrlo, (s.data.take offsethi).drop offsetlo⟩

/-- `Segment._conflicting_data`: address, old byte and new byte of the first
position in the overlap region where the two segments disagree.  The Python
generator scans `range(len(local))`. -/
def Segment.conflictingData (s seg : Segment) : Option (Nat × Nat × Nat) :=
  let addrlo := max s.addrlo seg.addrlo
  let addrhi := min s.addrhi seg.addrhi
  let loc := (s.subsegment addrlo addrhi).data
  let rem := (seg.subsegment addrlo addrhi).data
  match (List.range loc.length).find? (fun i => loc.getD i 0 != rem.getD i 0) with
  | none => none
  | some i => some (addrlo + i, loc.getD i 0, rem.getD i 0)

/-- `Segment.add(segment, overwrite)`: combine another segment's data into the
receiver, with Python's statement order preserved (in the second overlap
branch and the second adjacency branch the receiver is mutated in two steps,
each running `_validate`).  On an exception the error carries the receiver's
state at that moment. -/
def Segment.add (s seg : Segment) (overwrite : Bool) : Except (HexErr × Segment) Segment :=
  if s.overlaps seg then
    match (if overwrite then none else s.conflictingData seg) with
    | some (a, old, new) => .error (.dataCollision a old new, s)
    | none =>
      if s.addrlo ≤ seg.addrlo then
        s.setData ((s.data.take (seg.addrlo - s.addrlo)) ++ seg.data
          ++ s.data.drop (seg.addrhi - s.addrlo))
      else
        match s.setData (seg.data ++ s.data.drop (seg.addrhi - s.addrlo)) with
        | .error e => .error e
        | .ok s' => s'.setAddrlo seg.addrlo
  else if s.isadjacent seg then
    if s.addrlo < seg.addrlo then
      s.setData (s.data ++ seg.data)
    else
      match s.setAddrlo seg.addrlo with
      | .error e => .error e
      | .ok s' => s'.setData (seg.data ++ s.data)
  else .error (.nonSequentialData, s)

/-- Offsets generated by Python's `range(0, size, n)` for `n > 0`. -/
def rangeStep (size n : Nat) : List Nat :=
  (List.range ((size + n - 1) / n)).map (· * n)

/-- `Segment.split(bytes_per_seg)`: one segment per offset of
`range(0, size, n)`, each holding the slice `data[offset : offset + n]`
(equal to `(data.drop offset).take n`).  The `Segment` constructor inside the
comprehension cannot fail because each chunk stays inside the validated
range. -/
def Segment.split (s : Segment) (n : Nat) : List Segment :=
  (rangeStep s.size n).map (fun off => ⟨s.addrlo + off, (s.data.drop off).take n⟩)

/-- A segment is valid when it passed `_validate`. -/
def Segment.Valid (s : Segment) : Prop := segAddrlast s.addrlo s.data.length < 2 ^ 32

instance : DecidablePred Segment.Valid := fun s =>
  inferInstanceAs (Decidable (_ < _))

/-- Byte stored by a segment at an absolute address, if defined there. -/
def Segment.byteAt (s : Segment) (a : Nat) : Option Nat :=
  if s.addrlo ≤ a ∧ a < s.addrhi then some (s.data.getD (a - s.addrlo) 0) else none

/-- Result of `segments._compare_segments`: the module-level constants
`_SEGMENTS_ARE_ADJACENT` / `_SEGMENTS_OVERLAP` / `_SEGMENTS_HAVE_GAP`. -/
inductive SegRel where
  | adjacent
  | overlap
  | gap
deriving Repr, DecidableEq

/-- `segments._compare_segments(seg1, seg2)`. -/
def compareSegments (seg1 seg2 : Segment) : SegRel :=
  if seg1.addrlo = seg2.addrhi ∨ seg2.addrlo = seg1.addrhi then .adjacent
  else if seg1.addrlo < seg2.addrhi ∧ seg2.addrlo < seg1.addrhi then .overlap
  else .gap

/-- Stable insertion into a list sorted by `addrlo` (an element with an equal
key goes after the existing ones). -/
def insertSorted (s : Segment) : List Segment → List Segment
  | [] => [s]
  | t :: ts => if s.addrlo ≤ t.addrlo then s :: t :: ts else t :: insertSorted s ts

/-- Python's `list.sort(key=lambda x: x.addrlo)` is a stable sort by address;
any stable sort computes the same list, modelled here by insertion sort. -/
def sortByAddr (l : List Segment) : List Segment := l.foldr insertSorted []

/-- The loop of `Segments._join_connected_segments`, which walks
`reversed(self._segments)` while removing every element that is adjacent to or
overlaps the incoming segment and merging it into the incoming segment with
`seg.add(segment, overwrite)`.  Removing the element just visited from the
live list makes the reversed iterator visit each remaining element exactly
once, so the walk is a single right-to-left pass; the argument here is the
reversed list.  Returns the kept elements (still reversed) and the merged
segment; an exception from `Segment.add` propagates, its receiver state
dropped because the caller only observes the collection. -/
def joinRev : List Segment → Segment → Bool → Except HexErr (List Segment × Segment)
  | [], segment, _ => .ok ([], segment)
  | seg :: rest, segment, overwrite =>
    if compareSegments seg segment = .gap then
      match joinRev rest segment overwrite with
      | .ok (kept, sfinal) => .ok (seg :: kept, sfinal)
      | .error e => .error e
    else
      match Segment.add seg segment overwrite with
      | .ok merged => joinRev rest merged overwrite
      | .error (e, _) => .error e

/-- `Segments._insert_disconnected_segment`: insert before the first element
whose `addrlo` is strictly greater, else append. -/
def insertDisconnected : List Segment → Segment → List Segment
  | [], segment => [segment]
  | seg :: rest, segment =>
    if segment.addrlo < seg.addrlo then segment :: seg :: rest
    else seg :: insertDisconnected rest segment

/-- Body of the per-segment loop of `Segments.add`: skip empty segments, else
join with all connected existing segments and insert the result.  The
`Segment(segment)` copy is the identity under value semantics. -/
def addOne (cur : List Segment) (segment : Segment) (overwrite : Bool) :
    Except HexErr (List Segment) :=
  if segment.size = 0 then .ok cur
  else
    match joinRev cur.reverse segment overwrite with
    | .ok (keptRev, sfinal) => .ok (insertDisconnected keptRev.reverse sfinal)
    | .error e => .error e

/-- The loop of `Segments.add` over the incoming segments. -/
def addLoop (cur : List Segment) : List Segment → Bool → Except HexErr (List Segment)
  | [], _ => .ok cur
  | seg :: rest, overwrite =>
    match addOne cur seg overwrite with
    | .ok cur' => addLoop cur' rest overwrite
    | .error e => .error e

/-- `Segments.add(segments, overwrite)` for a list of incoming segments (a
single segment is passed as a one-element list, mirroring the
`isinstance(segments, Segment)` branch).  The existing list is sorted once
before the loop. -/
def Segments.add (cur : List Segment) (segments : List Segment) (overwrite : Bool) :
    Except HexErr (List Segment) :=
  addLoop (sortByAddr cur) segments overwrite

/-- `Segments.remove(addrlo, addrhi)`: rebuild the list, keeping whole
segments outside the window, dropping segments inside it, and keeping the
pieces of straddling segments.  Note the source tests `if subseg:` -- always
true for an object without `__len__`/`__bool__` -- so even zero-length pieces
are kept (its sibling `getrange` tests `if subseg.size:`). -/
def Segments.remove (cur : List Segment) (addrlo addrhi : Nat) : List Segment :=
  cur.foldl (fun keepers seg =>
    if addrlo ≤ seg.addrlo ∧ seg.addrhi ≤ addrhi then keepers
    else if seg.addrhi ≤ addrlo ∨ addrhi ≤ seg.addrlo then keepers ++ [seg]
    else
      let k1 := if seg.addrlo ≤ addrlo ∧ addrlo < seg.addrhi then
          keepers ++ [seg.subsegment seg.addrlo addrlo] else keepers
      if seg.addrlo ≤ addrhi ∧ addrhi < seg.addrhi then
        k1 ++ [seg.subsegment addrhi seg.addrhi] else k1) []

/-- One iteration of the `for seglo, seghi in itertools.pairwise(self._segments)`
loop of `Segments.fill`.  `pairwise` iterates the *live* list while
`self.add(gap)` mutates it: the model keeps the CPython list-iterator index
`i` (the loop ends as soon as `i` reaches the current length) and the
previously yielded element `a`.  The `fuel` argument only bounds the
recursion; the iteration count never exceeds the initial length because every
gap segment coalesces with at least one existing element, so the list never
grows. -/
def fillLoop (pattern : List Nat) : Nat → List Segment → Segment → Nat →
    Except HexErr (List Segment)
  | 0, cur, _, _ => .ok cur
  | fuel + 1, cur, a, i =>
    if h : i < cur.length then
      let b := cur.get ⟨i, h⟩
      let gapWidth := b.addrlo - a.addrhi
      let fillReps := gapWidth / pattern.length + 1
      let gapdata := (List.replicate fillReps pattern).flatten.take gapWidth
      match Segments.add cur [⟨a.addrhi, gapdata⟩] false with
      | .ok cur' => fillLoop pattern fuel cur' b (i + 1)
      | .error e => .error e
    else .ok cur

/-- `Segments.fill(fill)`: fill the gaps between segments with the repeating
pattern (truncated to the gap width).  `int(gap_width / len(fill)) + 1` is the
exact `gap_width / len(fill) + 1` here: for the magnitudes involved the float
quotient truncates to the integer quotient. -/
def Segments.fill (cur : List Segment) (pattern : List Nat) : Except HexErr (List Segment) :=
  match cur with
  | [] => .ok []
  | a :: _ => fillLoop pattern cur.length cur a 1

/-- The collection invariant stated by the spec: strictly ascending base
addresses with every pair of elements separated by at least one unassigned
address (no overlap, no adjacency). -/
def SegmentsInv (l : List Segment) : Prop :=
  l.Pairwise (fun s t => s.addrhi < t.addrlo)

instance : DecidablePred SegmentsInv := fun l =>
  inferInstanceAs (Decidable (l.Pairwise _))

/-! ### The codec layer (src/memory.py)

Lines of the text formats are modelled as `List Char`; the writers build each
line exactly as the source does (`:` or `S` + type digit followed by uppercase
hexadecimal byte pairs) and the readers scan each line with a model of the
`re.search` patterns `:([0-9A-Fa-f]{2})+` and `S[0-9A-Fa-f]([0-9A-Fa-f]{2})+`
restricted to a left-to-right scan for the anchor character followed by the
greedy run of hex-digit pairs. -/

/-- Uppercase hexadecimal digit character, as produced by
`bytes.hex().upper()`. -/
def hexDigitChar (n : Nat) : Char :=
  if n < 10 then Char.ofNat (48 + n) else Char.ofNat (55 + n)

/-- The two hex characters of one byte. -/
def byteHex (b : Nat) : List Char := [hexDigitChar (b / 16), hexDigitChar (b % 16)]

/-- `bytes.hex().upper()` of a byte string. -/
def bytesHex (bs : List Nat) : List Char := bs.flatMap byteHex

/-- The regex character class `[0-9A-Fa-f]`. -/
def isHexCh (c : Char) : Bool :=
  (decide ('0' ≤ c) && decide (c ≤ '9')) || (decide ('A' ≤ c) && decide (c ≤ 'F'))
    || (decide ('a' ≤ c) && decide (c ≤ 'f'))

/-- Numeric value of a hex digit character (`bytes.fromhex`). -/
def hexVal (c : Char) : Nat :=
  if decide ('0' ≤ c) && decide (c ≤ '9') then c.toNat - 48
  else if decide ('A' ≤ c) && decide (c ≤ 'F') then c.toNat - 55
  else if decide ('a' ≤ c) && decide (c ≤ 'f') then c.toNat - 87
  else 0

/-- Longest prefix of hex-digit characters (the greedy `([0-9A-Fa-f]{2})+`
run, before truncation to an even number of digits). -/
def hexRun : List Char → List Char
  | [] => []
  | c :: rest => if isHexCh c then c :: hexRun rest else []

/-- `bytes.fromhex` on an even-length digit string. -/
def parseHexPairs : List Char → List Nat
  | c1 :: c2 :: rest => (16 * hexVal c1 + hexVal c2) :: parseHexPairs rest
  | _ => []

/-- Model of `re.search(r':([0-9A-Fa-f]{2})+', line)` followed by
`bytes.fromhex(found[0][1:])`: find the leftmost `:` that is followed by at
least one full pair of hex digits and decode the greedy even-length run after
it. -/
def findIhexRecord : List Char → Option (List Nat)
  | [] => none
  | c :: rest =>
    if c = ':' then
      let run := hexRun rest
      let npairs := run.length / 2
      if 1 ≤ npairs then some (parseHexPairs (run.take (npairs * 2)))
      else findIhexRecord rest
    else findIhexRecord rest

/-- Model of `re.search(r'S[0-9A-Fa-f]([0-9A-Fa-f]{2})+', line)` followed by
`bytes.fromhex('0' + found[0][1:])`: the decoded record starts with the value
of the type digit, then the greedy even run of byte pairs. -/
def findSrecRecord : List Char → Option (List Nat)
  | [] => none
  | c :: rest =>
    if c = 'S' then
      match rest with
      | [] => none
      | t :: rest2 =>
        if isHexCh t then
          let run := hexRun rest2
          let npairs := run.length / 2
          if 1 ≤ npairs then some (hexVal t :: parseHexPairs (run.take (npairs * 2)))
          else findSrecRecord rest
        else findSrecRecord rest
    else findSrecRecord rest

/-- Big-endian `int.from_bytes(bs, byteorder='big')`. -/
def beBytes (bs : List Nat) : Nat := bs.foldl (fun a b => 256 * a + b) 0

/-- Big-endian `v.to_bytes(len, byteorder='big')`.  Python raises
`OverflowError` when `v ≥ 256 ^ len`; the model wraps instead, and every use
below is proved in range. -/
def toBytesBE : Nat → Nat → List Nat
  | 0, _ => []
  | len + 1, v => toBytesBE len (v / 256) ++ [v % 256]

/-- `_EXPECTED_IHEX_DATA_COUNT` (memory.py). -/
def expectedIhexCount (rectype : Nat) : Nat :=
  match rectype with
  | 1 => 0
  | 2 => 2
  | 3 => 4
  | 4 => 2
  | 5 => 4
  | _ => 0

/-- `_EXPECTED_SREC_ADDRESS_LENGTH` (memory.py). -/
def srecAddressLength (rectype : Nat) : Nat :=
  match rectype with
  | 0 => 2
  | 1 => 2
  | 2 => 3
  | 3 => 4
  | 5 => 2
  | 6 => 3
  | 7 => 4
  | 8 => 3
  | 9 => 2
  | _ => 0

/-- The record bytes assembled by `memory._ihextext`:
`[count, address_hi, address_lo, rectype, *data]` plus the checksum byte
`(0 - sum(record)) & 255`. -/
def ihexRecordBytes (rectype : Nat) (address : Nat) (data : List Nat) : List Nat :=
  let record := data.length :: toBytesBE 2 address ++ rectype :: data
  record ++ [(256 - record.sum % 256) % 256]

/-- `memory._ihextext`: a full Intel Hex line. -/
def ihextext (rectype : Nat) (address : Nat) (data : List Nat) : List Char :=
  ':' :: bytesHex (ihexRecordBytes rectype address data)

/-- The record bytes assembled by `memory._srectext`:
`[count, *address, *data]` plus the checksum byte `(sum(record) & 255) ^ 255`. -/
def srecRecordBytes (rectype : Nat) (address : Nat) (data : List Nat) : List Nat :=
  let addressLength := srecAddressLength rectype
  let record := (addressLength + data.length + 1) :: toBytesBE addressLength address ++ data
  record ++ [(record.sum % 256) ^^^ 255]

/-- `memory._srectext`: a full Motorola S line, `S` + type digit + hex. -/
def srectext (rectype : Nat) (address : Nat) (data : List Nat) : List Char :=
  'S' :: hexDigitChar rectype :: bytesHex (srecRecordBytes rectype address data)

/-- `memory._parse_ihex_line`, starting from the decoded record bytes.  The
`record[3]` access is only reached once `count == len(record) - 5` has ruled
out records shorter than 5 bytes. -/
def parseIhexRecord (record : List Nat) : Except HexErr (Nat × Nat × List Nat) :=
  let recordsum := record.sum % 256
  if recordsum ≠ 0 then
    let checksum := record.getLast?.getD 0
    .error (.checksumError ((((checksum : Int) - recordsum) % 256).toNat) checksum)
  else
    let count := record.getD 0 0
    if (count : Int) ≠ (record.length : Int) - 5 then
      .error (.recordLengthError ((record.length : Int) - 5) count)
    else
      let rectype := record.getD 3 0
      if 6 ≤ rectype then .error (.badRecordTypeError rectype)
      else if rectype ≠ 0 ∧ count ≠ expectedIhexCount rectype then
        .error (.recordTypeLengthError rectype (expectedIhexCount rectype) count)
      else
        let address := beBytes ((record.drop 1).take 2)
        let data := (record.drop 4).dropLast
        .ok (rectype, address, data)

/-- `memory._parse_srec_line`, starting from the decoded record bytes (whose
first byte is the type digit).  The regex guarantees at least one byte after
the type digit, so `record.length ≥ 2` and `len(record) - 2` is the
non-negative `expected_count`. -/
def parseSrecRecord (record : List Nat) : Except HexErr (Nat × Nat × List Nat) :=
  let recordsum := (record.drop 1).sum % 256
  if recordsum ≠ 255 then
    let checksum := record.getLast?.getD 0
    .error (.checksumError (((((recordsum : Int) - checksum) % 256).toNat) ^^^ 255) checksum)
  else
    let count := record.getD 1 0
    if count ≠ record.length - 2 then
      .error (.recordLengthError ((record.length : Int) - 2) count)
    else
      let rectype := record.getD 0 0
      if rectype = 4 ∨ 10 ≤ rectype then .error (.badRecordTypeError rectype)
      else
        let addressLength := srecAddressLength rectype
        if 5 ≤ rectype ∧ count ≠ addressLength + 1 then
          .error (.recordTypeLengthError rectype (addressLength + 1) count)
        else
          let address := beBytes ((record.drop 2).take addressLength)
          let data := (record.drop (addressLength + 2)).dropLast
          .ok (rectype, address, data)

/-- The state of a `Memory` object that the codec claims observe: the segment
collection, the optional start address, and the S-record header chunks. -/
structure MemoryState where
  segments : List Segment
  start_address : Option Nat
  header : List (List Nat)
deriving Repr, DecidableEq

/-- A fresh memory, as left by `Memory.clear()`. -/
def MemoryState.empty : MemoryState := ⟨[], none, []⟩

/-- Per-line step of `Memory.read_ihex`: lines without a record match are
skipped; otherwise the record is parsed and dispatched on its type, tracking
the extended address.  Record type 3 reproduces the source expression
`int.from_bytes(data[:2], 'big') << 4 + int.from_bytes(data[2:], 'big')`,
which by Python operator precedence shifts by `4 + lo`. -/
def ihexLineStep (overwrite : Bool) (st : MemoryState × Nat) (line : List Char) :
    Except HexErr (MemoryState × Nat) :=
  match findIhexRecord line with
  | none => .ok st
  | some record =>
    match parseIhexRecord record with
    | .error e => .error e
    | .ok (rectype, address, data) =>
      let (mem, ext) := st
      if rectype = 0 then
        match mkSegment data ((ext + address : Nat) : Int) with
        | .error e => .error e
        | .ok seg =>
          match Segments.add mem.segments [seg] overwrite with
          | .error e => .error e
          | .ok segs => .ok ({ mem with segments := segs }, ext)
      else if rectype = 2 then .ok (mem, beBytes data <<< 4)
      else if rectype = 3 then
        .ok ({ mem with
          start_address := some (beBytes (data.take 2) <<< (4 + beBytes (data.drop 2))) }, ext)
      else if rectype = 4 then .ok (mem, beBytes data <<< 16)
      else if rectype = 5 then .ok ({ mem with start_address := some (beBytes data) }, ext)
      else .ok (mem, ext)

/-- The line loop of `Memory.read_ihex` (the `for line_number, line_text ...`
loop; the state starts from a cleared memory and `extended_address = 0`). -/
def readIhexLoop (overwrite : Bool) : List (List Char) → (MemoryState × Nat) →
    Except HexErr (MemoryState × Nat)
  | [], st => .ok st
  | line :: rest, st =>
    match ihexLineStep overwrite st line with
    | .ok st' => readIhexLoop overwrite rest st'
    | .error e => .error e

/-- `Memory.read_ihex(text)`: replace memory with the decoded Intel Hex data. -/
def readIhex (lines : List (List Char)) (overwrite : Bool) : Except HexErr MemoryState :=
  match readIhexLoop overwrite lines (MemoryState.empty, 0) with
  | .ok (mem, _) => .ok mem
  | .error e => .error e

/-- Per-line step of `Memory.read_srec`. -/
def srecLineStep (overwrite : Bool) (mem : MemoryState) (line : List Char) :
    Except HexErr MemoryState :=
  match findSrecRecord line with
  | none => .ok mem
  | some record =>
    match parseSrecRecord record with
    | .error e => .error e
    | .ok (rectype, address, data) =>
      if rectype = 0 then .ok { mem with header := [data] }
      else if rectype = 1 ∨ rectype = 2 ∨ rectype = 3 then
        match mkSegment data (address : Int) with
        | .error e => .error e
        | .ok seg =>
          match Segments.add mem.segments [seg] overwrite with
          | .error e => .error e
          | .ok segs => .ok { mem with segments := segs }
      else if rectype = 7 ∨ rectype = 8 ∨ rectype = 9 then
        .ok { mem with start_address := some address }
      else .ok mem

/-- The line loop of `Memory.read_srec`. -/
def readSrecLoop (overwrite : Bool) : List (List Char) → MemoryState →
    Except HexErr MemoryState
  | [], mem => .ok mem
  | line :: rest, mem =>
    match srecLineStep overwrite mem line with
    | .ok mem' => readSrecLoop overwrite rest mem'
    | .error e => .error e

/-- `Memory.read_srec(text)`. -/
def readSrec (lines : List (List Char)) (overwrite : Bool) : Except HexErr MemoryState :=
  readSrecLoop overwrite lines MemoryState.empty

/-- The data-record lines of `Memory.write_ihex`, over the flattened chunk
stream (the nested segment/chunk loops thread the single `extaddr` state, so
they equal one loop over the concatenation of all chunks).  `int(addrlo /
65536)` is exact for 32-bit addresses and `& 65535` is `% 65536`. -/
def writeIhexData : List Segment → Nat → List (List Char)
  | [], _ => []
  | subseg :: rest, extaddr =>
    let hiword := subseg.addrlo / 65536
    (if extaddr ≠ hiword then [ihextext 4 0 (toBytesBE 2 hiword)] else [])
      ++ ihextext 0 (subseg.addrlo % 65536) subseg.data :: writeIhexData rest hiword

/-- The value of the `extaddr` loop variable of `Memory.write_ihex` after
emitting the records of a chunk list (used to state the replay lemmas). -/
def ihexFinalExt : List Segment → Nat → Nat
  | [], extaddr => extaddr
  | subseg :: rest, _ => ihexFinalExt rest (subseg.addrlo / 65536)

/-- `Memory.write_ihex`: data records (with Extended Linear Address records
whenever the high word changes), then an optional Start Linear Address
record, then End Of File. -/
def writeIhex (m : MemoryState) (bytesPerLine : Nat) : List (List Char) :=
  writeIhexData (m.segments.flatMap (fun seg => seg.split bytesPerLine)) 0
    ++ (match m.start_address with
        | some s => [ihextext 5 0 (toBytesBE 4 s)]
        | none => [])
    ++ [ihextext 1 0 []]

/-- `Memory.header`: the header chunks joined by tab bytes. -/
def headerJoined (m : MemoryState) : List Nat := (m.header.intersperse [9]).flatten

/-- `addrhi` of a `Segments` collection: the end of the last segment, `0` when
empty. -/
def collAddrhi (l : List Segment) : Nat :=
  match l.getLast? with
  | some s => s.addrhi
  | none => 0

/-- Python's `int.bit_length()`. -/
def bitLen (n : Nat) : Nat := if n = 0 then 0 else Nat.log2 n + 1

/-- `Memory.write_srec`: optional header record, data records at the narrowest
address width that fits both the highest address and the start address, an
optional record-count record, and an optional start-address record of type
`10 - rectype`. -/
def writeSrec (m : MemoryState) (bytesPerLine : Nat) (showCount : Bool) :
    List (List Char) :=
  let headerLines := if m.header ≠ [] then [srectext 0 0 (headerJoined m)] else []
  let startBits := match m.start_address with
    | some s => s
    | none => 0
  let bits := max (bitLen (collAddrhi m.segments)) (bitLen startBits)
  let rectype := if bits ≤ 16 then 1 else if bits ≤ 24 then 2 else 3
  let chunks := m.segments.flatMap (fun seg => seg.split bytesPerLine)
  let dataLines := chunks.map (fun subseg => srectext rectype subseg.addrlo subseg.data)
  let reccount := chunks.length
  let countLines := if showCount then
      [srectext (if reccount < 65536 then 5 else 6) reccount []] else []
  let startLines := match m.start_address with
    | some s => [srectext (10 - rectype) s []]
    | none => []
  headerLines ++ dataLines ++ countLines ++ startLines

/-- Well-formedness of a memory image for the round-trip property: the
collection satisfies the ordering invariant with non-empty segments of
in-range addresses and byte values, the start address fits 32 bits, and the
header fits one S0 record. -/
def MemWF (m : MemoryState) : Prop :=
  SegmentsInv m.segments
  ∧ (∀ s ∈ m.segments, 0 < s.data.length ∧ s.addrlo + s.data.length ≤ 2 ^ 32
      ∧ ∀ b ∈ s.data, b < 256)
  ∧ m.start_address.getD 0 < 2 ^ 32
  ∧ (headerJoined m).length + 3 ≤ 255
  ∧ ∀ b ∈ headerJoined m, b < 256

instance : DecidablePred MemWF := fun m => by
  unfold MemWF
  exact inferInstance

/-- Chunk lists produced by `Segment.split`: each chunk is non-empty and
starts exactly where the previous one ends. -/
def IsChain : Nat → List Segment → Prop
  | _, [] => True
  | a, c :: cs => c.addrlo = a ∧ 0 < c.data.length ∧ IsChain c.addrhi cs

/-! ### Theorems -/

/-- Claim C9: construction (and the assignments of address and data it runs)
raises exactly when the 32-bit invariant is violated, i.e. when the address is
negative or `base + max(len - 1, 0) ≥ 2^32` (the `max` is the truncated `Nat`
subtraction `data.length - 1`), and otherwise stores the given address and
bytes unchanged; every later assignment validates the same bound: the `data`
setter succeeds with the bytes stored unchanged iff the bound holds at the
stored address, and the `addrlo` setter (over arbitrary integers) fails iff
the assigned address is negative or breaks the bound for the stored data, and
otherwise stores the assigned address unchanged. -/
theorem mkSegment_validates (data : List Nat) (a : Int) :
    (mkSegment data a = .error .valueError
      ↔ a < 0 ∨ (2 ^ 32 : Int) ≤ a + ((data.length - 1 : Nat) : Int))
    ∧ (¬ (a < 0 ∨ (2 ^ 32 : Int) ≤ a + ((data.length - 1 : Nat) : Int)) →
        mkSegment data a = .ok ⟨a.toNat, data⟩)
    ∧ (∀ s : Segment, Segment.setData s data = .ok ⟨s.addrlo, data⟩
        ↔ s.addrlo + (data.length - 1) < 2 ^ 32)
    ∧ (∀ s : Segment,
        (Segment.setAddrloInt s a = .error (.valueError, a, s.data)
          ↔ a < 0 ∨ (2 ^ 32 : Int) ≤ a + ((s.data.length - 1 : Nat) : Int))
        ∧ (Segment.setAddrloInt s a = .ok ⟨a.toNat, s.data⟩
          ↔ ¬ (a < 0 ∨ (2 ^ 32 : Int) ≤ a + ((s.data.length - 1 : Nat) : Int)))) := by
  refine ⟨?_, ?_, ?_, ?_⟩
  · unfold mkSegment validateAddr segAddrlast
    split_ifs with h1 h2 h3 <;> simp only [reduceCtorEq, Except.error.injEq, iff_true,
      iff_false, not_or, not_le, true_iff, false_iff, not_lt] <;> omega
  · intro h
    unfold mkSegment validateAddr segAddrlast
    split_ifs with h1 h2 h3 <;> first
      | rfl
      | omega
  · intro s
    unfold Segment.setData segAddrlast
    split_ifs with h1 <;> simp only [reduceCtorEq, Except.ok.injEq, iff_true, iff_false,
      false_iff, not_lt, true_iff] <;> omega
  · intro s
    unfold Segment.setAddrloInt segAddrlast
    split_ifs with h1 h2 <;>
      simp only [reduceCtorEq, Except.error.injEq, Except.ok.injEq, Prod.mk.injEq,
        Segment.mk.injEq, and_true, true_and, iff_true, iff_false, true_iff, false_iff,
        not_or, not_lt, not_le, not_not] <;>
      constructor <;> omega

/-- Witness for C9 at a concrete in-range input. -/
theorem mkSegment_validates_witness :
    (¬ ((5 : Int) < 0 ∨ (2 ^ 32 : Int) ≤ 5 + (([1, 2].length - 1 : Nat) : Int))
      ∧ mkSegment [1, 2] 5 = .ok ⟨5, [1, 2]⟩)
    ∧ Segment.setAddrloInt ⟨9, [1, 2]⟩ 5 = .ok ⟨5, [1, 2]⟩ :=
  ⟨⟨by decide, (mkSegment_validates [1, 2] 5).2.1 (by decide)⟩,
    ((mkSegment_validates [1, 2] 5).2.2.2 ⟨9, [1, 2]⟩).2.mpr (by decide)⟩

/-- Claim C5: adding a segment separated from the receiver by a gap of at
least one address raises `NonSequentialDataError` for either overwrite mode,
and never gap-fills. -/
theorem add_gap_raises (A B : Segment) (hA : 0 < A.size) (hB : 0 < B.size)
    (hgap : A.addrhi < B.addrlo ∨ B.addrhi < A.addrlo) (ow : Bool) :
    Segment.add A B ow = .error (.nonSequentialData, A) := by
  have hov : A.overlaps B = false := by
    unfold Segment.overlaps
    simp only [Bool.and_eq_false_iff, decide_eq_false_iff_not, not_lt]
    omega
  have hadj : A.isadjacent B = false := by
    unfold Segment.isadjacent Segment.addrhi at *
    unfold Segment.size at hA hB
    simp only [Bool.or_eq_false_iff, decide_eq_false_iff_not]
    omega
  unfold Segment.add
  rw [hov, hadj]
  simp

/-- Witness for C5 at a concrete gapped pair. -/
theorem add_gap_raises_witness :
    0 < (⟨0, [1]⟩ : Segment).size ∧ 0 < (⟨5, [2]⟩ : Segment).size
    ∧ (⟨0, [1]⟩ : Segment).addrhi < (⟨5, [2]⟩ : Segment).addrlo
    ∧ Segment.add ⟨0, [1]⟩ ⟨5, [2]⟩ true = .error (.nonSequentialData, ⟨0, [1]⟩) :=
  ⟨by decide, by decide, by decide,
    add_gap_raises ⟨0, [1]⟩ ⟨5, [2]⟩ (by decide) (by decide) (Or.inl (by decide)) true⟩

/-- Claim C10: when `Segment.add` raises `DataCollisionError` or
`NonSequentialDataError`, the receiver carried in the error is exactly the
original segment -- the collision scan runs before any mutation.  (The
`ValueError` path of the transient revalidation, by contrast, carries a
mutated receiver.) -/
theorem add_atomic_on_failure (A B : Segment) (ow : Bool) (e : HexErr) (s : Segment)
    (h : Segment.add A B ow = .error (e, s))
    (he : e = .nonSequentialData ∨ ∃ a x y, e = .dataCollision a x y) :
    s = A := by
  have hcases : e = .valueError ∨ s = A := by
    unfold Segment.add Segment.setData Segment.setAddrlo at h
    repeat' (first | (split at h) | (split_ifs at h))
    all_goals try (rename_i heq; split_ifs at heq <;> simp_all)
    all_goals simp_all
  rcases hcases with hv | hok
  · rcases he with he | ⟨a, x, y, he⟩ <;> simp_all
  · exact hok

/-- Length of the Python `range(0, size, n)` offset list. -/
theorem rangeStep_length (size n : Nat) : (rangeStep size n).length = (size + n - 1) / n := by
  simp [rangeStep]

/-- Peeling one chunk off the ceiling division. -/
theorem ceilDiv_step (size n : Nat) (hn : 0 < n) (hs : 0 < size) :
    (size + n - 1) / n = (size - n + n - 1) / n + 1 := by
  rcases le_or_lt size n with h | h
  · have h1 : size - n = 0 := by omega
    have h2 : (0 + n - 1) / n = 0 := Nat.div_eq_of_lt (by omega)
    have h3 : (size + n - 1) / n = 1 := by
      have he : size + n - 1 = (size - 1) + n := by omega
      rw [he, Nat.add_div_right _ hn, Nat.div_eq_of_lt (by omega)]
    rw [h1, h3, h2]
  · have he : size + n - 1 = (size - n + n - 1) + n := by omega
    rw [he, Nat.add_div_right _ hn]

/-- The offset list of a non-empty range starts at offset 0 and continues
with the offsets of the rest shifted by one chunk. -/
theorem rangeStep_eq (size n : Nat) (hn : 0 < n) (hs : 0 < size) :
    rangeStep size n = 0 :: (rangeStep (size - n) n).map (· + n) := by
  unfold rangeStep
  rw [ceilDiv_step size n hn hs, List.range_succ_eq_map]
  simp only [List.map_cons, Nat.zero_mul, List.map_map]
  congr 1
  apply List.map_congr_left
  intro j hj
  simp [Nat.succ_mul]

/-- Concatenating the chunks of a list gives the list back. -/
theorem chunks_flatten_aux : ∀ (m : Nat) (l : List Nat) (n : Nat), 0 < n → l.length = m →
    ((rangeStep l.length n).map (fun off => (l.drop off).take n)).flatten = l := by
  intro m
  induction m using Nat.strong_induction_on with
  | _ m ih =>
    intro l n hn hl
    rcases Nat.eq_zero_or_pos l.length with h0 | hpos
    · have hnil : l = [] := List.length_eq_zero.mp h0
      subst hnil
      have h : (0 + n - 1) / n = 0 := Nat.div_eq_of_lt (by omega)
      simp [rangeStep, h]
    · rw [rangeStep_eq _ _ hn hpos]
      have hlen : (l.drop n).length = l.length - n := l.length_drop n
      have IH := ih ((l.drop n).length) (by omega) (l.drop n) n hn rfl
      simp only [List.map_cons, List.drop_zero, List.map_map, List.flatten_cons]
      have harms : (rangeStep (l.length - n) n).map ((fun off => (l.drop off).take n) ∘ (· + n))
          = (rangeStep (l.drop n).length n).map (fun off => ((l.drop n).drop off).take n) := by
        rw [hlen]
        apply List.map_congr_left
        intro j hj
        simp [List.drop_drop, Nat.add_comm]
      rw [harms, IH, List.take_append_drop]

/-- Closed form for the chunks of `Segment.split`. -/
theorem split_getD (s : Segment) (n j : Nat) (h : j < (s.split n).length) :
    (s.split n).getD j ⟨0, []⟩ = ⟨s.addrlo + j * n, (s.data.drop (j * n)).take n⟩ := by
  have hj : j < (s.size + n - 1) / n := by
    simpa [Segment.split, rangeStep_length] using h
  simp [Segment.split, rangeStep, List.getD_eq_getElem?_getD, List.getElem?_map,
    List.getElem?_range, hj]

/-- Number of chunks produced by `Segment.split`. -/
theorem split_length (s : Segment) (n : Nat) : (s.split n).length = (s.size + n - 1) / n := by
  simp [Segment.split, rangeStep_length]

/-- Claim C8: `split(n)` partitions the segment into consecutive chunks in
ascending address order (chunk `j` starts at `base + j*n`), all of size `n`
except a shorter final chunk for a remainder, and their concatenation is the
original data. -/
theorem split_spec (s : Segment) (n : Nat) (hn : 0 < n) :
    (((s.split n).map Segment.data).flatten = s.data)
    ∧ ((s.split n).length = (s.size + n - 1) / n)
    ∧ (∀ j, j < (s.split n).length → ((s.split n).getD j ⟨0, []⟩).addrlo = s.addrlo + j * n)
    ∧ (∀ j, j + 1 < (s.split n).length → ((s.split n).getD j ⟨0, []⟩).size = n)
    ∧ (∀ k, s.size = n * k → (s.split n).length = k ∧ ∀ c ∈ s.split n, c.size = n)
    ∧ (∀ k r, s.size = n * k + r → 0 < r → r < n →
        (s.split n).length = k + 1 ∧ ((s.split n).getD k ⟨0, []⟩).size = r) := by
  refine ⟨?_, split_length s n, ?_, ?_, ?_, ?_⟩
  · have h1 : (s.split n).map Segment.data
        = (rangeStep s.data.length n).map (fun off => (s.data.drop off).take n) := by
      simp [Segment.split, List.map_map, Segment.size]
    rw [h1, chunks_flatten_aux s.data.length s.data n hn rfl]
  · intro j hj
    rw [split_getD s n j hj]
  · intro j hj
    rw [split_getD s n j (by omega)]
    have hlen : j + 1 < (s.size + n - 1) / n := by rwa [split_length] at hj
    have hmul : (j + 2) * n ≤ s.size + n - 1 :=
      (Nat.le_div_iff_mul_le hn).mp (by omega)
    have hexp : (j + 2) * n = j * n + 2 * n := by ring
    have hss : s.size = s.data.length := rfl
    simp [Segment.size, List.length_take, List.length_drop]
    omega
  · intro k hk
    have hck : (s.size + n - 1) / n = k := by
      rw [hk]
      rcases Nat.eq_zero_or_pos k with h0 | hpos
      · subst h0
        simp only [Nat.mul_zero, Nat.zero_add]
        exact Nat.div_eq_of_lt (by omega)
      · have h1 : 1 ≤ n * k := Nat.one_le_iff_ne_zero.mpr (by positivity)
        have he : n * k + n - 1 = (n - 1) + n * k := by omega
        rw [he, Nat.add_mul_div_left _ _ hn, Nat.div_eq_of_lt (by omega)]
        omega
    have hlen : (s.split n).length = k := by rw [split_length, hck]
    refine ⟨hlen, ?_⟩
    intro c hc
    unfold Segment.split at hc
    rcases List.mem_map.mp hc with ⟨off, hoff, rfl⟩
    unfold rangeStep at hoff
    rcases List.mem_map.mp hoff with ⟨i, hi, rfl⟩
    have hik : i < k := by
      have h2 := List.mem_range.mp hi
      omega
    have h1 : (i + 1) * n ≤ k * n := Nat.mul_le_mul_right n (by omega)
    have h2 : (i + 1) * n = i * n + n := by ring
    have h3 : k * n = n * k := Nat.mul_comm k n
    have hss : s.size = s.data.length := rfl
    simp [Segment.size, List.length_take, List.length_drop]
    omega
  · intro k r hk hr1 hr2
    have hck : (s.size + n - 1) / n = k + 1 := by
      rw [hk]
      have he : n * k + r + n - 1 = (r + n - 1) + n * k := by omega
      rw [he, Nat.add_mul_div_left _ _ hn]
      have he2 : r + n - 1 = (r - 1) + n := by omega
      rw [he2, Nat.add_div_right _ hn, Nat.div_eq_of_lt (by omega)]
      omega
    have hlen : (s.split n).length = k + 1 := by rw [split_length, hck]
    refine ⟨hlen, ?_⟩
    rw [split_getD s n k (by omega)]
    have h3 : k * n = n * k := Nat.mul_comm k n
    have hss : s.size = s.data.length := rfl
    simp [Segment.size, List.length_take, List.length_drop]
    omega

/-- Witness for C8 at a concrete segment of size 3*2+1. -/
theorem split_spec_witness :
    0 < 3
    ∧ (((⟨10, [1, 2, 3, 4, 5, 6, 7]⟩ : Segment).split 3).map Segment.data).flatten
        = [1, 2, 3, 4, 5, 6, 7] :=
  ⟨by decide, (split_spec ⟨10, [1, 2, 3, 4, 5, 6, 7]⟩ 3 (by decide)).1⟩

/-- Witness for C10 at a concrete failing add. -/
theorem add_atomic_on_failure_witness :
    Segment.add ⟨0, [1]⟩ ⟨5, [2]⟩ false = .error (.nonSequentialData, ⟨0, [1]⟩)
    ∧ (⟨0, [1]⟩ : Segment) = ⟨0, [1]⟩ :=
  ⟨by decide,
    add_atomic_on_failure ⟨0, [1]⟩ ⟨5, [2]⟩ false .nonSequentialData ⟨0, [1]⟩
      (by decide) (Or.inl rfl)⟩

lemma subsegment_overlap_data (s : Segment) (lo hi : Nat)
    (h1 : s.addrlo ≤ lo) (h2 : lo < hi) (h3 : hi ≤ s.addrhi) :
    (s.subsegment lo hi).data = (s.data.take (hi - s.addrlo)).drop (lo - s.addrlo) := by
  have hhi : s.addrhi = s.addrlo + s.data.length := rfl
  have hsz : s.size = s.data.length := rfl
  unfold Segment.subsegment
  dsimp only
  split_ifs with ha hb hc hd he hf hg <;> simp_all <;>
    first
      | omega
      | (congr 1; rw [List.take_of_length_le (by omega)])

lemma slice_getD (l : List Nat) (a b i : Nat) (hab : a + i < b) (hl : a + i < l.length) :
    ((l.take b).drop a).getD i 0 = l.getD (a + i) 0 := by
  simp [List.getD_eq_getElem?_getD, List.getElem?_drop, List.getElem?_take, hab]

lemma slice_length (l : List Nat) (a b : Nat) (hb : b ≤ l.length) :
    ((l.take b).drop a).length = b - a := by
  simp [List.length_drop, List.length_take]
  omega

lemma find_range_first : ∀ (i : Nat) (p : Nat → Bool) (n : Nat), i < n → p i = true →
    (∀ j, j < i → p j = false) → (List.range n).find? p = some i := by
  intro i
  induction i with
  | zero =>
    intro p n hn hp hmin
    obtain ⟨m, rfl⟩ : ∃ m, n = m + 1 := ⟨n - 1, by omega⟩
    rw [List.range_succ_eq_map]
    simp [List.find?_cons, hp]
  | succ i ih =>
    intro p n hn hp hmin
    obtain ⟨m, rfl⟩ : ∃ m, n = m + 1 := ⟨n - 1, by omega⟩
    rw [List.range_succ_eq_map]
    have h0 : p 0 = false := hmin 0 (by omega)
    rw [List.find?_cons, h0]
    simp only [List.find?_map]
    have hih := ih (p ∘ Nat.succ) m (by omega) (by simpa using hp)
      (fun j hj => by simpa using hmin (j + 1) (by omega))
    rw [hih]
    rfl

lemma overlap_bounds (A B : Segment) (hov : A.overlaps B = true) :
    B.addrlo < A.addrhi ∧ A.addrlo < B.addrhi := by
  unfold Segment.overlaps at hov
  simp only [Bool.and_eq_true, decide_eq_true_eq] at hov
  exact hov

lemma subsegment_degenerate (s : Segment) (lo hi : Nat) (h : hi ≤ lo) :
    (s.subsegment lo hi).data = [] := by
  have hhi : s.addrhi = s.addrlo + s.data.length := rfl
  have hsz : s.size = s.data.length := rfl
  unfold Segment.subsegment
  dsimp only
  split_ifs with h1 h2 h3 h4 <;> first | rfl | omega | (exfalso; omega)

lemma conflict_slices (A B : Segment)
    (hlt : max A.addrlo B.addrlo < min A.addrhi B.addrhi) :
    ((A.subsegment (max A.addrlo B.addrlo) (min A.addrhi B.addrhi)).data
        = (A.data.take (min A.addrhi B.addrhi - A.addrlo)).drop
            (max A.addrlo B.addrlo - A.addrlo))
    ∧ ((B.subsegment (max A.addrlo B.addrlo) (min A.addrhi B.addrhi)).data
        = (B.data.take (min A.addrhi B.addrhi - B.addrlo)).drop
            (max A.addrlo B.addrlo - B.addrlo)) := by
  constructor
  · exact subsegment_overlap_data A _ _ (le_max_left _ _) hlt (min_le_left _ _)
  · exact subsegment_overlap_data B _ _ (le_max_right _ _) hlt (min_le_right _ _)

lemma conflictingData_some (A B : Segment) (i : Nat)
    (hov : A.overlaps B = true)
    (hi : max A.addrlo B.addrlo + i < min A.addrhi B.addrhi)
    (hdiff : A.data.getD (max A.addrlo B.addrlo + i - A.addrlo) 0
        ≠ B.data.getD (max A.addrlo B.addrlo + i - B.addrlo) 0)
    (hmin : ∀ j, j < i → A.data.getD (max A.addrlo B.addrlo + j - A.addrlo) 0
        = B.data.getD (max A.addrlo B.addrlo + j - B.addrlo) 0) :
    A.conflictingData B = some (max A.addrlo B.addrlo + i,
      A.data.getD (max A.addrlo B.addrlo + i - A.addrlo) 0,
      B.data.getD (max A.addrlo B.addrlo + i - B.addrlo) 0) := by
  obtain ⟨hb1, hb2⟩ := overlap_bounds A B hov
  obtain ⟨hsA, hsB⟩ := conflict_slices A B (by omega)
  have hAlen : A.addrhi = A.addrlo + A.data.length := rfl
  have hBlen : B.addrhi = B.addrlo + B.data.length := rfl
  unfold Segment.conflictingData
  dsimp only
  rw [hsA, hsB]
  have hlenA : ((A.data.take (min A.addrhi B.addrhi - A.addrlo)).drop
      (max A.addrlo B.addrlo - A.addrlo)).length = min A.addrhi B.addrhi - max A.addrlo B.addrlo := by
    rw [slice_length _ _ _ (by omega)]
    omega
  have hgetA : ∀ j, max A.addrlo B.addrlo + j < min A.addrhi B.addrhi →
      ((A.data.take (min A.addrhi B.addrhi - A.addrlo)).drop
        (max A.addrlo B.addrlo - A.addrlo)).getD j 0
      = A.data.getD (max A.addrlo B.addrlo + j - A.addrlo) 0 := by
    intro j hj
    rw [show max A.addrlo B.addrlo + j - A.addrlo
        = (max A.addrlo B.addrlo - A.addrlo) + j by omega]
    exact slice_getD _ _ _ _ (by omega) (by omega)
  have hgetB : ∀ j, max A.addrlo B.addrlo + j < min A.addrhi B.addrhi →
      ((B.data.take (min A.addrhi B.addrhi - B.addrlo)).drop
        (max A.addrlo B.addrlo - B.addrlo)).getD j 0
      = B.data.getD (max A.addrlo B.addrlo + j - B.addrlo) 0 := by
    intro j hj
    rw [show max A.addrlo B.addrlo + j - B.addrlo
        = (max A.addrlo B.addrlo - B.addrlo) + j by omega]
    exact slice_getD _ _ _ _ (by omega) (by omega)
  have hfind := find_range_first i
    (fun j => ((A.data.take (min A.addrhi B.addrhi - A.addrlo)).drop
        (max A.addrlo B.addrlo - A.addrlo)).getD j 0
      != ((B.data.take (min A.addrhi B.addrhi - B.addrlo)).drop
        (max A.addrlo B.addrlo - B.addrlo)).getD j 0)
    (((A.data.take (min A.addrhi B.addrhi - A.addrlo)).drop
        (max A.addrlo B.addrlo - A.addrlo)).length)
    (by omega)
    (by simp only [hgetA i hi, hgetB i hi]; exact bne_iff_ne.mpr hdiff)
    (fun j hj => by
      simp only [hgetA j (by omega), hgetB j (by omega), bne_eq_false_iff_eq]
      exact hmin j hj)
  rw [hfind]
  simp only [hgetA i hi, hgetB i hi]

lemma conflictingData_none (A B : Segment)
    (hov : A.overlaps B = true)
    (heq : ∀ a, max A.addrlo B.addrlo ≤ a → a < min A.addrhi B.addrhi →
        A.data.getD (a - A.addrlo) 0 = B.data.getD (a - B.addrlo) 0) :
    A.conflictingData B = none := by
  obtain ⟨hb1, hb2⟩ := overlap_bounds A B hov
  rcases le_or_lt (min A.addrhi B.addrhi) (max A.addrlo B.addrlo) with hdeg | hlt
  · have hdA := subsegment_degenerate A _ _ hdeg
    unfold Segment.conflictingData
    dsimp only
    rw [hdA]
    rfl
  obtain ⟨hsA, hsB⟩ := conflict_slices A B hlt
  have hAlen : A.addrhi = A.addrlo + A.data.length := rfl
  have hBlen : B.addrhi = B.addrlo + B.data.length := rfl
  unfold Segment.conflictingData
  dsimp only
  rw [hsA, hsB]
  have hres : (List.range (((A.data.take (min A.addrhi B.addrhi - A.addrlo)).drop
      (max A.addrlo B.addrlo - A.addrlo)).length)).find?
      (fun j => ((A.data.take (min A.addrhi B.addrhi - A.addrlo)).drop
        (max A.addrlo B.addrlo - A.addrlo)).getD j 0
      != ((B.data.take (min A.addrhi B.addrhi - B.addrlo)).drop
        (max A.addrlo B.addrlo - B.addrlo)).getD j 0) = none := by
    rw [List.find?_eq_none]
    intro j hj
    have hjlen := List.mem_range.mp hj
    rw [slice_length _ _ _ (by omega)] at hjlen
    have hjlt : max A.addrlo B.addrlo + j < min A.addrhi B.addrhi := by omega
    simp only [Bool.not_eq_true, bne_eq_false_iff_eq]
    rw [slice_getD _ _ _ _ (by omega) (by omega)]
    rw [slice_getD _ _ _ _ (by omega) (by omega)]
    rw [show (max A.addrlo B.addrlo - A.addrlo) + j
        = max A.addrlo B.addrlo + j - A.addrlo by omega]
    rw [show (max A.addrlo B.addrlo - B.addrlo) + j
        = max A.addrlo B.addrlo + j - B.addrlo by omega]
    exact heq (max A.addrlo B.addrlo + j) (by omega) hjlt
  simp only [hres]

/-- Claim C7: for overlapping segments whose first differing byte in the
overlap region is at relative offset `i`, `add` with overwrite disabled
raises `DataCollisionError` reporting address `max(A.base, B.base) + i`, the
receiver's byte as the old value and the argument's byte as the new value. -/
theorem add_collision_first_diff (A B : Segment) (i : Nat)
    (hov : A.overlaps B = true)
    (hi : max A.addrlo B.addrlo + i < min A.addrhi B.addrhi)
    (hdiff : A.data.getD (max A.addrlo B.addrlo + i - A.addrlo) 0
        ≠ B.data.getD (max A.addrlo B.addrlo + i - B.addrlo) 0)
    (hmin : ∀ j, j < i → A.data.getD (max A.addrlo B.addrlo + j - A.addrlo) 0
        = B.data.getD (max A.addrlo B.addrlo + j - B.addrlo) 0) :
    Segment.add A B false = .error (.dataCollision (max A.addrlo B.addrlo + i)
      (A.data.getD (max A.addrlo B.addrlo + i - A.addrlo) 0)
      (B.data.getD (max A.addrlo B.addrlo + i - B.addrlo) 0), A) := by
  have hc := conflictingData_some A B i hov hi hdiff hmin
  unfold Segment.add
  simp only [hov, if_true, Bool.false_eq_true, if_false, hc]

/-- Witness for C7 at a concrete overlapping pair differing at offset 1. -/
theorem add_collision_first_diff_witness :
    (⟨0, [1, 2, 3]⟩ : Segment).overlaps ⟨1, [2, 9]⟩ = true
    ∧ Segment.add ⟨0, [1, 2, 3]⟩ ⟨1, [2, 9]⟩ false
        = .error (.dataCollision 2 3 9, ⟨0, [1, 2, 3]⟩) := by
  constructor
  · decide
  · exact add_collision_first_diff ⟨0, [1, 2, 3]⟩ ⟨1, [2, 9]⟩ 1 (by decide) (by decide)
      (by decide) (by decide)

lemma getD_append_lt (l1 l2 : List Nat) (i : Nat) (h : i < l1.length) :
    (l1 ++ l2).getD i 0 = l1.getD i 0 := by
  simp [List.getD_eq_getElem?_getD, List.getElem?_append_left h]

lemma getD_append_ge (l1 l2 : List Nat) (i : Nat) (h : l1.length ≤ i) :
    (l1 ++ l2).getD i 0 = l2.getD (i - l1.length) 0 := by
  simp [List.getD_eq_getElem?_getD, List.getElem?_append_right h]

lemma getD_take_lt (l : List Nat) (n i : Nat) (h : i < n) :
    (l.take n).getD i 0 = l.getD i 0 := by
  simp [List.getD_eq_getElem?_getD, List.getElem?_take, h]

lemma getD_drop (l : List Nat) (n i : Nat) :
    (l.drop n).getD i 0 = l.getD (n + i) 0 := by
  simp [List.getD_eq_getElem?_getD, List.getElem?_drop]

lemma byteAt_def (s : Segment) (a : Nat) :
    s.byteAt a = if s.addrlo ≤ a ∧ a < s.addrhi then some (s.data.getD (a - s.addrlo) 0)
      else none := rfl

/-- Claim C6 as amended: merging overlapping segments whose bytes agree on
the overlap (overwrite disabled) succeeds and produces the union, with each
byte taken from whichever input defined it -- provided that, when the
argument starts below the receiver, the transient revalidation of the new
data at the receiver's old base address stays inside 32 bits
(`A.base + (union_end - B.base) ≤ 2^32`).  Without that proviso the claim is
false: see the counterexample. -/
theorem add_identical_overlap (A B : Segment) (hA : A.Valid) (hB : B.Valid)
    (hov : A.overlaps B = true)
    (heq : ∀ a, a < min A.addrhi B.addrhi → max A.addrlo B.addrlo ≤ a →
        A.data.getD (a - A.addrlo) 0 = B.data.getD (a - B.addrlo) 0)
    (hfit : B.addrlo < A.addrlo →
        A.addrlo + (max A.addrhi B.addrhi - B.addrlo) ≤ 2 ^ 32) :
    ∃ C : Segment, Segment.add A B false = .ok C
      ∧ C.addrlo = min A.addrlo B.addrlo
      ∧ C.addrhi = max A.addrhi B.addrhi
      ∧ ∀ a, C.byteAt a = (A.byteAt a).or (B.byteAt a) := by
  obtain ⟨hb1, hb2⟩ := overlap_bounds A B hov
  have hAhi : A.addrhi = A.addrlo + A.data.length := rfl
  have hBhi : B.addrhi = B.addrlo + B.data.length := rfl
  unfold Segment.Valid segAddrlast at hA hB
  have hnone : A.conflictingData B = none :=
    conflictingData_none A B hov (fun a h1 h2 => heq a h2 h1)
  unfold Segment.add
  simp only [hov, if_true, Bool.false_eq_true, if_false, hnone]
  by_cases hle : A.addrlo ≤ B.addrlo
  · rw [if_pos hle]
    have hlen : (A.data.take (B.addrlo - A.addrlo) ++ B.data
        ++ A.data.drop (B.addrhi - A.addrlo)).length = max A.addrhi B.addrhi - A.addrlo := by
      simp only [List.length_append, List.length_take, List.length_drop]
      omega
    unfold Segment.setData segAddrlast
    rw [if_neg (by rw [hlen]; omega)]
    refine ⟨_, rfl, by simp [min_eq_left hle], ?_, ?_⟩
    · show (⟨A.addrlo, _⟩ : Segment).addrhi = _
      unfold Segment.addrhi at hlen ⊢
      dsimp only
      rw [hlen]
      omega
    · intro a
      rw [byteAt_def, byteAt_def, byteAt_def]
      unfold Segment.addrhi at hlen ⊢
      dsimp only
      rw [hlen]
      have hlen1 : (A.data.take (B.addrlo - A.addrlo)).length = B.addrlo - A.addrlo := by
        simp [List.length_take]; omega
      by_cases h1 : a < A.addrlo
      · rw [if_neg (by omega), if_neg (by omega), if_neg (by omega)]
        rfl
      by_cases h5 : max A.addrhi B.addrhi ≤ a
      · rw [if_neg (by omega), if_neg (by omega), if_neg (by omega)]
        rfl
      rw [if_pos (by omega)]
      by_cases h2 : a < B.addrlo
      · rw [getD_append_lt _ _ _ (by rw [List.length_append, hlen1]; omega)]
        rw [getD_append_lt _ _ _ (by rw [hlen1]; omega)]
        rw [getD_take_lt _ _ _ (by omega)]
        rw [if_pos (by omega), if_neg (by omega)]
        rfl
      by_cases h3 : a < B.addrhi
      · rw [getD_append_lt _ _ _ (by rw [List.length_append, hlen1]; omega)]
        rw [getD_append_ge _ _ _ (by rw [hlen1]; omega)]
        rw [hlen1]
        have hBbyte : B.data.getD (a - A.addrlo - (B.addrlo - A.addrlo)) 0
            = B.data.getD (a - B.addrlo) 0 := by
          congr 1
          omega
        rw [hBbyte]
        by_cases h4 : a < A.addrhi
        · rw [if_pos (by omega)]
          have hab := heq a (by omega) (by omega)
          rw [← hab]
          rfl
        · rw [if_neg (by omega), if_pos (by omega)]
          rfl
      · rw [getD_append_ge _ _ _ (by rw [List.length_append, hlen1]; omega)]
        rw [List.length_append, hlen1]
        rw [getD_drop]
        have hAbyte : A.data.getD ((B.addrlo + B.data.length - A.addrlo)
            + (a - A.addrlo - (B.addrlo - A.addrlo + B.data.length))) 0
            = A.data.getD (a - A.addrlo) 0 := by
          congr 1
          omega
        rw [hAbyte, if_pos (by omega), if_neg (by omega)]
        rfl
  · rw [if_neg hle]
    push_neg at hle
    have hlen : (B.data ++ A.data.drop (B.addrhi - A.addrlo)).length
        = max A.addrhi B.addrhi - B.addrlo := by
      simp only [List.length_append, List.length_drop]
      omega
    unfold Segment.setData segAddrlast
    rw [if_neg (by rw [hlen]; have := hfit hle; omega)]
    unfold Segment.setAddrlo segAddrlast
    dsimp only
    rw [if_neg (by rw [hlen]; omega)]
    refine ⟨_, rfl, by simp [min_eq_right (le_of_lt hle)], ?_, ?_⟩
    · show (⟨B.addrlo, _⟩ : Segment).addrhi = _
      unfold Segment.addrhi at hlen ⊢
      dsimp only
      rw [hlen]
      omega
    · intro a
      rw [byteAt_def, byteAt_def, byteAt_def]
      unfold Segment.addrhi at hlen ⊢
      dsimp only
      rw [hlen]
      by_cases h1 : a < B.addrlo
      · rw [if_neg (by omega), if_neg (by omega), if_neg (by omega)]
        rfl
      by_cases h5 : max A.addrhi B.addrhi ≤ a
      · rw [if_neg (by omega), if_neg (by omega), if_neg (by omega)]
        rfl
      rw [if_pos (by omega)]
      by_cases h2 : a < B.addrhi
      · rw [getD_append_lt _ _ _ (by omega)]
        by_cases h3 : A.addrlo ≤ a ∧ a < A.addrlo + A.data.length
        · rw [if_pos h3]
          have hab := heq a (by omega) (by omega)
          rw [← hab]
          rfl
        · rw [if_neg h3, if_pos (by omega)]
          rfl
      · rw [getD_append_ge _ _ _ (by omega)]
        rw [getD_drop]
        have hAbyte : A.data.getD ((B.addrlo + B.data.length - A.addrlo)
            + (a - B.addrlo - B.data.length)) 0
            = A.data.getD (a - A.addrlo) 0 := by
          congr 1
          omega
        rw [hAbyte, if_pos (by omega), if_neg (by omega)]
        rfl

/-- Counterexample to claim C6 as stated: two valid overlapping segments at
the top of the 32-bit space with identical overlap bytes for which
`A.add(B, overwrite=false)` raises `ValueError` from the transient
revalidation (the `data` setter validates the merged bytes at A's old base
address before `addrlo` is lowered), instead of succeeding with the union. -/
theorem add_identical_overlap_counterexample :
    (⟨4294967294, [170, 187]⟩ : Segment).Valid
    ∧ (⟨4294967292, [1, 2, 170]⟩ : Segment).Valid
    ∧ Segment.overlaps ⟨4294967294, [170, 187]⟩ ⟨4294967292, [1, 2, 170]⟩ = true
    ∧ (∀ a, a < min (Segment.addrhi ⟨4294967294, [170, 187]⟩)
          (Segment.addrhi ⟨4294967292, [1, 2, 170]⟩) →
        max 4294967294 4294967292 ≤ a →
        ([170, 187] : List Nat).getD (a - 4294967294) 0
          = ([1, 2, 170] : List Nat).getD (a - 4294967292) 0)
    ∧ Segment.add ⟨4294967294, [170, 187]⟩ ⟨4294967292, [1, 2, 170]⟩ false
        = .error (.valueError, ⟨4294967294, [1, 2, 170, 187]⟩) := by
  refine ⟨by decide, by decide, by decide, ?_, by decide⟩
  intro a h1 h2
  have hmin : min (Segment.addrhi ⟨4294967294, [170, 187]⟩)
      (Segment.addrhi ⟨4294967292, [1, 2, 170]⟩) = 4294967295 := by decide
  have hmax : max (4294967294 : Nat) 4294967292 = 4294967294 := by decide
  rw [hmin] at h1
  rw [hmax] at h2
  have ha : a = 4294967294 := by omega
  subst ha
  decide

/-- Claim C1 (code bug): `Segments.fill` iterates `pairwise` over the live
segment list while `add` coalesces elements of that same list, so with three
gapped segments the iterator runs off the shortened list after the first gap
and the second gap survives: filling `[0,1) [2,3) [4,5)` with pattern `FF`
returns a collection that still has the gap `[3,4)`, where the claim requires
every gap between the original lowest and highest segments to be filled. -/
theorem fill_skips_second_gap :
    Segments.fill [⟨0, [65]⟩, ⟨2, [66]⟩, ⟨4, [67]⟩] [255]
      = .ok [⟨0, [65, 255, 66]⟩, ⟨4, [67]⟩]
    ∧ (⟨0, [65, 255, 66]⟩ : Segment).addrhi < (⟨4, [67]⟩ : Segment).addrlo := by
  exact ⟨by decide, by decide⟩

/-- Claim C4 (code bug): `Segments.remove` keeps zero-length subsegments
(`if subseg:` is always true for a `Segment` object, unlike the
`if subseg.size:` used by `getrange`), so removing `[0,5)` and then `[5,7)`
from the single segment `[0,10)` leaves two empty segments both based at
address 0 -- the list is no longer strictly ascending and the two empties are
adjacent to each other, violating the collection invariant. -/
theorem remove_breaks_invariant :
    Segments.remove (Segments.remove [⟨0, [0, 1, 2, 3, 4, 5, 6, 7, 8, 9]⟩] 0 5) 5 7
      = [⟨0, []⟩, ⟨0, []⟩, ⟨7, [7, 8, 9]⟩]
    ∧ ¬ SegmentsInv [⟨0, []⟩, ⟨0, []⟩, ⟨7, [7, 8, 9]⟩]
    ∧ Segment.isadjacent ⟨0, []⟩ ⟨0, []⟩ = true := by
  exact ⟨by decide, by decide, by decide⟩

/-- Claim C2 (code bug): decoding a Start Segment Address record whose data
is `[0,1,0,1]` (hi half 1, lo half 1).  The source expression
`hi << 4 + lo` parses as `hi << (4 + lo)` by Python operator precedence, so
the stored start address is 32, not the `(hi << 4) + lo = 17` the claim (and
the spec's description of the source arithmetic) states. -/
theorem ihex_start_segment_address_bug :
    readIhex [ihextext 3 0 [0, 1, 0, 1]] false = .ok ⟨[], some 32, []⟩
    ∧ (32 : Nat) ≠ (1 <<< 4) + 1 := by
  exact ⟨by decide, by decide⟩

/-- Witness for the amended C6 at a concrete overlapping pair. -/
theorem add_identical_overlap_witness :
    ∃ C : Segment, Segment.add ⟨0, [1, 2, 3]⟩ ⟨2, [3, 4]⟩ false = .ok C
      ∧ C.addrlo = min (Segment.addrlo ⟨0, [1, 2, 3]⟩) (Segment.addrlo ⟨2, [3, 4]⟩)
      ∧ C.addrhi = max (Segment.addrhi ⟨0, [1, 2, 3]⟩) (Segment.addrhi ⟨2, [3, 4]⟩)
      ∧ ∀ a, C.byteAt a = ((⟨0, [1, 2, 3]⟩ : Segment).byteAt a).or
          ((⟨2, [3, 4]⟩ : Segment).byteAt a) :=
  add_identical_overlap ⟨0, [1, 2, 3]⟩ ⟨2, [3, 4]⟩ (by decide) (by decide) (by decide)
    (by decide) (by decide)

lemma hexVal_hexDigitChar : ∀ n, n < 16 → hexVal (hexDigitChar n) = n := by decide

lemma isHexCh_hexDigitChar : ∀ n, n < 16 → isHexCh (hexDigitChar n) = true := by decide

lemma byteHex_parse (b : Nat) (hb : b < 256) (rest : List Char) :
    parseHexPairs (byteHex b ++ rest) = b :: parseHexPairs rest := by
  show (16 * hexVal (hexDigitChar (b / 16)) + hexVal (hexDigitChar (b % 16)))
      :: parseHexPairs rest = _
  rw [hexVal_hexDigitChar _ (by omega), hexVal_hexDigitChar _ (by omega)]
  congr 1
  omega

lemma parseHexPairs_bytesHex (bs : List Nat) (hb : ∀ b ∈ bs, b < 256) :
    parseHexPairs (bytesHex bs) = bs := by
  induction bs with
  | nil => rfl
  | cons b t ih =>
    unfold bytesHex at *
    rw [List.flatMap_cons, byteHex_parse b (hb b (by simp)) _,
      ih (fun x hx => hb x (by simp [hx]))]

lemma bytesHex_hex (bs : List Nat) (hb : ∀ b ∈ bs, b < 256) :
    ∀ c ∈ bytesHex bs, isHexCh c = true := by
  induction bs with
  | nil => simp [bytesHex]
  | cons b t ih =>
    unfold bytesHex at *
    rw [List.flatMap_cons]
    intro c hc
    rcases List.mem_append.mp hc with h | h
    · have hb256 := hb b (by simp)
      simp only [byteHex, List.mem_cons, List.not_mem_nil, or_false] at h
      rcases h with rfl | rfl
      · exact isHexCh_hexDigitChar _ (by omega)
      · exact isHexCh_hexDigitChar _ (by omega)
    · exact ih (fun x hx => hb x (by simp [hx])) c h

lemma hexRun_all (l : List Char) (h : ∀ c ∈ l, isHexCh c = true) : hexRun l = l := by
  induction l with
  | nil => rfl
  | cons c t ih =>
    unfold hexRun
    rw [h c (by simp), ih (fun x hx => h x (by simp [hx]))]
    simp

lemma bytesHex_length (bs : List Nat) : (bytesHex bs).length = 2 * bs.length := by
  induction bs with
  | nil => rfl
  | cons b t ih =>
    unfold bytesHex at *
    rw [List.flatMap_cons]
    simp only [List.length_append, ih]
    unfold byteHex
    simp
    omega

lemma findIhexRecord_emit (bs : List Nat) (hne : bs ≠ []) (hb : ∀ b ∈ bs, b < 256) :
    findIhexRecord (':' :: bytesHex bs) = some bs := by
  unfold findIhexRecord
  rw [if_pos rfl, hexRun_all _ (bytesHex_hex bs hb)]
  dsimp only
  rw [bytesHex_length]
  have hlen : 0 < bs.length := List.length_pos.mpr hne
  rw [if_pos (by omega)]
  rw [show 2 * bs.length / 2 * 2 = 2 * bs.length by omega]
  rw [← bytesHex_length, List.take_length, parseHexPairs_bytesHex bs hb]

lemma findSrecRecord_emit (t : Nat) (ht : t < 16) (bs : List Nat) (hne : bs ≠ [])
    (hb : ∀ b ∈ bs, b < 256) :
    findSrecRecord ('S' :: hexDigitChar t :: bytesHex bs) = some (t :: bs) := by
  unfold findSrecRecord
  rw [if_pos rfl]
  show (if isHexCh (hexDigitChar t) = true then
      let run := hexRun (bytesHex bs)
      let npairs := run.length / 2
      if 1 ≤ npairs then some (hexVal (hexDigitChar t) :: parseHexPairs (List.take (npairs * 2) run))
      else findSrecRecord (hexDigitChar t :: bytesHex bs)
    else findSrecRecord (hexDigitChar t :: bytesHex bs)) = some (t :: bs)
  rw [isHexCh_hexDigitChar t ht]
  simp only [if_true]
  rw [hexRun_all _ (bytesHex_hex bs hb)]
  rw [bytesHex_length]
  have hlen : 0 < bs.length := List.length_pos.mpr hne
  rw [if_pos (by omega)]
  rw [show 2 * bs.length / 2 * 2 = 2 * bs.length by omega]
  rw [← bytesHex_length, List.take_length, parseHexPairs_bytesHex bs hb,
    hexVal_hexDigitChar t ht]

lemma toBytesBE_length (n v : Nat) : (toBytesBE n v).length = n := by
  induction n generalizing v with
  | zero => rfl
  | succ n ih =>
    unfold toBytesBE
    simp [ih]

lemma toBytesBE_lt (n v : Nat) : ∀ b ∈ toBytesBE n v, b < 256 := by
  induction n generalizing v with
  | zero => simp [toBytesBE]
  | succ n ih =>
    unfold toBytesBE
    intro b hb
    rcases List.mem_append.mp hb with h | h
    · exact ih (v / 256) b h
    · simp at h
      omega

lemma beBytes_append_one (l : List Nat) (b : Nat) :
    beBytes (l ++ [b]) = 256 * beBytes l + b := by
  unfold beBytes
  rw [List.foldl_append]
  rfl

lemma beBytes_toBytesBE (n v : Nat) (h : v < 256 ^ n) : beBytes (toBytesBE n v) = v := by
  induction n generalizing v with
  | zero =>
    have : v = 0 := by simpa using h
    simp [this, toBytesBE, beBytes]
  | succ n ih =>
    unfold toBytesBE
    rw [beBytes_append_one, ih (v / 256) (by
      rw [pow_succ] at h
      exact Nat.div_lt_of_lt_mul (by omega))]
    omega

lemma ihexRecordBytes_ne_nil (t a d) : ihexRecordBytes t a d ≠ [] := by
  unfold ihexRecordBytes
  simp

lemma ihexRecordBytes_lt (t a : Nat) (d : List Nat) (ht : t < 256) (hd : d.length < 256)
    (hb : ∀ b ∈ d, b < 256) : ∀ x ∈ ihexRecordBytes t a d, x < 256 := by
  unfold ihexRecordBytes
  intro x hx
  dsimp only at hx
  rcases List.mem_append.mp hx with h | h
  · rcases List.mem_cons.mp h with rfl | h
    · exact hd
    · rcases List.mem_append.mp h with h | h
      · exact toBytesBE_lt 2 a x h
      · rcases List.mem_cons.mp h with rfl | h
        · exact ht
        · exact hb x h
  · simp at h
    omega

lemma srecRecordBytes_ne_nil (t a d) : srecRecordBytes t a d ≠ [] := by
  unfold srecRecordBytes
  simp

lemma srecRecordBytes_lt (t a : Nat) (d : List Nat)
    (hcount : srecAddressLength t + d.length + 1 < 256)
    (hb : ∀ b ∈ d, b < 256) : ∀ x ∈ srecRecordBytes t a d, x < 256 := by
  unfold srecRecordBytes
  intro x hx
  dsimp only at hx
  rcases List.mem_append.mp hx with h | h
  · rcases List.mem_cons.mp h with rfl | h
    · exact hcount
    · rcases List.mem_append.mp h with h | h
      · exact toBytesBE_lt _ a x h
      · exact hb x h
  · simp at h
    subst h
    have h2 : (srecAddressLength t + d.length + 1
        + ((toBytesBE (srecAddressLength t) a).sum + d.sum)) % 256 < 2 ^ 8 := by omega
    have h3 : (255 : Nat) < 2 ^ 8 := by omega
    have h4 := Nat.xor_lt_two_pow h2 h3
    omega

lemma parseIhexRecord_emit (t a : Nat) (d : List Nat) (ht : t < 6)
    (hta : t ≠ 0 → d.length = expectedIhexCount t) (hd : d.length ≤ 255) (ha : a < 65536) :
    parseIhexRecord (ihexRecordBytes t a d) = .ok (t, a, d) := by
  have hsum : (ihexRecordBytes t a d).sum % 256 = 0 := by
    simp only [ihexRecordBytes, List.sum_append, List.sum_cons, List.sum_nil]
    omega
  have htb : toBytesBE 2 a = [(a / 256) % 256, a % 256] := rfl
  obtain ⟨c, hshape⟩ : ∃ c, ihexRecordBytes t a d
      = d.length :: (a / 256) % 256 :: a % 256 :: t :: (d ++ [c]) :=
    ⟨(256 - (d.length :: (toBytesBE 2 a ++ t :: d)).sum % 256) % 256,
      by simp [ihexRecordBytes, htb]⟩
  have hbe : beBytes [(a / 256) % 256, a % 256] = a := by
    rw [← htb]
    exact beBytes_toBytesBE 2 a (by omega)
  unfold parseIhexRecord
  rw [hsum]
  rw [if_neg (by simp)]
  rw [hshape]
  have hlen : (d.length :: (a / 256) % 256 :: a % 256 :: t :: (d ++ [c])).length
      = d.length + 5 := by simp
  rw [hlen]
  have hgd0 : (d.length :: (a / 256) % 256 :: a % 256 :: t :: (d ++ [c])).getD 0 0
      = d.length := rfl
  rw [hgd0]
  rw [if_neg (by push_cast; omega)]
  have hgd3 : (d.length :: (a / 256) % 256 :: a % 256 :: t :: (d ++ [c])).getD 3 0 = t := rfl
  rw [hgd3]
  rw [if_neg (by omega)]
  rw [if_neg (by
    rintro ⟨h0, hcnt⟩
    exact hcnt (hta h0))]
  have hdrop1 : ((d.length :: (a / 256) % 256 :: a % 256 :: t :: (d ++ [c])).drop 1).take 2
      = [(a / 256) % 256, a % 256] := rfl
  have hdrop4 : ((d.length :: (a / 256) % 256 :: a % 256 :: t :: (d ++ [c])).drop 4).dropLast
      = d := by
    show (d ++ [c]).dropLast = d
    simp
  rw [hdrop1, hdrop4, hbe]

set_option maxRecDepth 4096 in
lemma xor255 : ∀ x, x < 256 → x ^^^ 255 = 255 - x := by decide

lemma parseSrecRecord_emit (t a : Nat) (d : List Nat)
    (ht4 : t ≠ 4) (ht10 : t < 10) (ht5 : 5 ≤ t → d = [])
    (hcount : srecAddressLength t + d.length + 1 ≤ 255)
    (ha : a < 256 ^ srecAddressLength t) :
    parseSrecRecord (t :: srecRecordBytes t a d) = .ok (t, a, d) := by
  obtain ⟨c, hc, hshape⟩ : ∃ c, c = ((srecAddressLength t + d.length + 1)
        :: (toBytesBE (srecAddressLength t) a ++ d)).sum % 256 ^^^ 255
      ∧ srecRecordBytes t a d = (srecAddressLength t + d.length + 1)
        :: (toBytesBE (srecAddressLength t) a ++ (d ++ [c])) :=
    ⟨_, rfl, by simp [srecRecordBytes]⟩
  have hsum : ((t :: srecRecordBytes t a d).drop 1).sum % 256 = 255 := by
    rw [List.drop_one, List.tail_cons, hshape]
    simp only [List.sum_cons, List.sum_append, List.sum_nil]
    rw [hc]
    rw [xor255 _ (by omega)]
    simp only [List.sum_cons, List.sum_append]
    omega
  unfold parseSrecRecord
  rw [hsum]
  rw [if_neg (by simp)]
  rw [hshape]
  have hlen : ((t :: (srecAddressLength t + d.length + 1)
      :: (toBytesBE (srecAddressLength t) a ++ (d ++ [c])))).length
      = srecAddressLength t + d.length + 3 := by
    simp [toBytesBE_length]
    omega
  rw [hlen]
  have hgd1 : ((t :: (srecAddressLength t + d.length + 1)
      :: (toBytesBE (srecAddressLength t) a ++ (d ++ [c])))).getD 1 0
      = srecAddressLength t + d.length + 1 := rfl
  rw [hgd1]
  rw [if_neg (by omega)]
  have hgd0 : ((t :: (srecAddressLength t + d.length + 1)
      :: (toBytesBE (srecAddressLength t) a ++ (d ++ [c])))).getD 0 0 = t := rfl
  rw [hgd0]
  rw [if_neg (by omega)]
  rw [if_neg (by
    rintro ⟨h5, hbad⟩
    have hd0 : d = [] := ht5 h5
    subst hd0
    simp at hbad)]
  have hdrop2 : ((t :: (srecAddressLength t + d.length + 1)
      :: (toBytesBE (srecAddressLength t) a ++ (d ++ [c])))).drop 2
      = toBytesBE (srecAddressLength t) a ++ (d ++ [c]) := rfl
  rw [hdrop2]
  have htake : (toBytesBE (srecAddressLength t) a ++ (d ++ [c])).take (srecAddressLength t)
      = toBytesBE (srecAddressLength t) a := by
    have h := List.take_left (toBytesBE (srecAddressLength t) a) (d ++ [c])
    rwa [toBytesBE_length] at h
  have hdropal : ((t :: (srecAddressLength t + d.length + 1)
      :: (toBytesBE (srecAddressLength t) a ++ (d ++ [c])))).drop (srecAddressLength t + 2)
      = d ++ [c] := by
    show (toBytesBE (srecAddressLength t) a ++ (d ++ [c])).drop (srecAddressLength t) = _
    have h := List.drop_left (toBytesBE (srecAddressLength t) a) (d ++ [c])
    rwa [toBytesBE_length] at h
  rw [htake, hdropal, beBytes_toBytesBE _ _ ha]
  simp

lemma readIhexLoop_append (ow : Bool) (l1 l2 : List (List Char)) (st : MemoryState × Nat) :
    readIhexLoop ow (l1 ++ l2) st = match readIhexLoop ow l1 st with
      | .ok st' => readIhexLoop ow l2 st'
      | .error e => .error e := by
  induction l1 generalizing st with
  | nil => rfl
  | cons line rest ih =>
    show readIhexLoop ow (line :: (rest ++ l2)) st = _
    simp only [readIhexLoop]
    cases hstep : ihexLineStep ow st line with
    | error e => simp [hstep]
    | ok stx =>
      simp only [hstep]
      exact ih stx

lemma readSrecLoop_append (ow : Bool) (l1 l2 : List (List Char)) (mem : MemoryState) :
    readSrecLoop ow (l1 ++ l2) mem = match readSrecLoop ow l1 mem with
      | .ok mem' => readSrecLoop ow l2 mem'
      | .error e => .error e := by
  induction l1 generalizing mem with
  | nil => rfl
  | cons line rest ih =>
    show readSrecLoop ow (line :: (rest ++ l2)) mem = _
    simp only [readSrecLoop]
    cases hstep : srecLineStep ow mem line with
    | error e => simp [hstep]
    | ok memx =>
      simp only [hstep]
      exact ih memx


lemma mkSegment_ok_of_bounds (data : List Nat) (a : Int)
    (h : ¬ (a < 0 ∨ (2 ^ 32 : Int) ≤ a + ((data.length - 1 : Nat) : Int))) :
    mkSegment data a = .ok ⟨a.toNat, data⟩ := by
  unfold mkSegment validateAddr segAddrlast
  split_ifs with h1 h2 h3 <;> first
    | rfl
    | omega

lemma ihexLineStep_ela (ow : Bool) (mem : MemoryState) (e h : Nat) (hh : h < 65536) :
    ihexLineStep ow (mem, e) (ihextext 4 0 (toBytesBE 2 h)) = .ok (mem, h * 65536) := by
  unfold ihexLineStep ihextext
  rw [findIhexRecord_emit _ (ihexRecordBytes_ne_nil _ _ _)
    (ihexRecordBytes_lt 4 0 _ (by omega) (by rw [toBytesBE_length]; omega) (toBytesBE_lt 2 h))]
  simp only [parseIhexRecord_emit 4 0 (toBytesBE 2 h) (by omega)
    (fun _ => by rw [toBytesBE_length]; rfl) (by rw [toBytesBE_length]; omega) (by omega)]
  norm_num
  rw [beBytes_toBytesBE 2 h (by omega), Nat.shiftLeft_eq]

lemma ihexLineStep_start (ow : Bool) (mem : MemoryState) (e sv : Nat) (hs : sv < 2 ^ 32) :
    ihexLineStep ow (mem, e) (ihextext 5 0 (toBytesBE 4 sv))
      = .ok ({ mem with start_address := some sv }, e) := by
  have hs4 : sv < 256 ^ 4 := by norm_num at *; omega
  unfold ihexLineStep ihextext
  rw [findIhexRecord_emit _ (ihexRecordBytes_ne_nil _ _ _)
    (ihexRecordBytes_lt 5 0 _ (by omega) (by rw [toBytesBE_length]; omega) (toBytesBE_lt 4 sv))]
  simp only [parseIhexRecord_emit 5 0 (toBytesBE 4 sv) (by omega)
    (fun _ => by rw [toBytesBE_length]; rfl) (by rw [toBytesBE_length]; omega) (by omega)]
  norm_num
  rw [beBytes_toBytesBE 4 sv hs4]

lemma ihexLineStep_eof (ow : Bool) (mem : MemoryState) (e : Nat) :
    ihexLineStep ow (mem, e) (ihextext 1 0 []) = .ok (mem, e) := by
  unfold ihexLineStep ihextext
  rw [findIhexRecord_emit _ (ihexRecordBytes_ne_nil _ _ _)
    (ihexRecordBytes_lt 1 0 [] (by omega) (by simp) (by simp))]
  simp only [parseIhexRecord_emit 1 0 [] (by omega) (fun _ => rfl) (by simp) (by omega)]
  norm_num

lemma ihexLineStep_data (ow : Bool) (mem : MemoryState) (e : Nat) (c : Segment)
    (L' : List Segment) (hcv : c.Valid) (hc0 : 0 < c.size) (hd255 : c.data.length ≤ 255)
    (hb : ∀ b ∈ c.data, b < 256) (he : e = c.addrlo / 65536 * 65536)
    (hadd : Segments.add mem.segments [⟨c.addrlo, c.data⟩] ow = .ok L') :
    ihexLineStep ow (mem, e) (ihextext 0 (c.addrlo % 65536) c.data)
      = .ok ({ mem with segments := L' }, e) := by
  unfold ihexLineStep ihextext
  rw [findIhexRecord_emit _ (ihexRecordBytes_ne_nil _ _ _)
    (ihexRecordBytes_lt 0 (c.addrlo % 65536) c.data (by omega) (by omega) hb)]
  simp only [parseIhexRecord_emit 0 (c.addrlo % 65536) c.data (by omega)
    (fun hne => absurd rfl hne) hd255 (by omega)]
  norm_num
  have haddr : (e : Int) + (c.addrlo : Int) % 65536 = (c.addrlo : Int) := by
    subst he
    push_cast
    omega
  rw [haddr]
  unfold Segment.Valid segAddrlast at hcv
  rw [mkSegment_ok_of_bounds c.data (c.addrlo : Int) (by push_cast; omega)]
  simp only [Int.toNat_natCast, hadd]

lemma srecLineStep_header (ow : Bool) (mem : MemoryState) (hd : List Nat)
    (hcnt : 2 + hd.length + 1 ≤ 255) (hb : ∀ b ∈ hd, b < 256) :
    srecLineStep ow mem (srectext 0 0 hd) = .ok { mem with header := [hd] } := by
  unfold srecLineStep srectext
  rw [findSrecRecord_emit 0 (by omega) _ (srecRecordBytes_ne_nil _ _ _)
    (srecRecordBytes_lt 0 0 hd (by simp only [srecAddressLength]; omega) hb)]
  simp only [parseSrecRecord_emit 0 0 hd (by omega) (by omega) (fun h => absurd h (by omega))
    (by simp only [srecAddressLength]; omega) (by norm_num)]
  norm_num

lemma srecLineStep_data (ow : Bool) (mem : MemoryState) (r : Nat) (c : Segment)
    (L' : List Segment) (hr : r = 1 ∨ r = 2 ∨ r = 3) (hcv : c.Valid) (hc0 : 0 < c.size)
    (hb : ∀ b ∈ c.data, b < 256) (ha : c.addrlo < 256 ^ srecAddressLength r)
    (hcnt : srecAddressLength r + c.data.length + 1 ≤ 255)
    (hadd : Segments.add mem.segments [⟨c.addrlo, c.data⟩] ow = .ok L') :
    srecLineStep ow mem (srectext r c.addrlo c.data) = .ok { mem with segments := L' } := by
  unfold srecLineStep srectext
  rw [findSrecRecord_emit r (by omega) _ (srecRecordBytes_ne_nil _ _ _)
    (srecRecordBytes_lt r c.addrlo c.data (by omega) hb)]
  simp only [parseSrecRecord_emit r c.addrlo c.data (by omega) (by omega)
    (fun h => absurd h (by omega)) hcnt ha]
  unfold Segment.Valid segAddrlast at hcv
  have hr0 : ¬ (r = 0) := by omega
  rw [if_neg hr0, if_pos hr]
  rw [mkSegment_ok_of_bounds c.data (c.addrlo : Int) (by push_cast; omega)]
  simp only [Int.toNat_natCast, hadd]

lemma srecLineStep_start (ow : Bool) (mem : MemoryState) (r sv : Nat)
    (hr : r = 1 ∨ r = 2 ∨ r = 3) (hs : sv < 256 ^ srecAddressLength (10 - r)) :
    srecLineStep ow mem (srectext (10 - r) sv [])
      = .ok { mem with start_address := some sv } := by
  unfold srecLineStep srectext
  rw [findSrecRecord_emit (10 - r) (by omega) _ (srecRecordBytes_ne_nil _ _ _)
    (srecRecordBytes_lt (10 - r) sv [] (by
      rcases hr with rfl | rfl | rfl <;> simp [srecAddressLength]) (by simp))]
  simp only [parseSrecRecord_emit (10 - r) sv [] (by omega) (by omega) (fun _ => rfl)
    (by rcases hr with rfl | rfl | rfl <;> simp [srecAddressLength]) hs]
  have h0 : ¬ ((10 - r) = 0) := by omega
  have h123 : ¬ ((10 - r) = 1 ∨ (10 - r) = 2 ∨ (10 - r) = 3) := by omega
  rw [if_neg h0, if_neg h123, if_pos (by omega)]

lemma sortByAddr_id (l : List Segment)
    (h : l.Pairwise (fun s t => s.addrlo ≤ t.addrlo)) : sortByAddr l = l := by
  induction l with
  | nil => rfl
  | cons x xs ih =>
    have hx := List.pairwise_cons.mp h
    show insertSorted x (sortByAddr xs) = x :: xs
    rw [ih hx.2]
    cases xs with
    | nil => rfl
    | cons y ys =>
      show (if x.addrlo ≤ y.addrlo then x :: y :: ys else y :: insertSorted x ys) = _
      rw [if_pos (hx.1 y (by simp))]

lemma inv_pairwise_le (l : List Segment) (h : SegmentsInv l) :
    l.Pairwise (fun s t => s.addrlo ≤ t.addrlo) := by
  unfold SegmentsInv at h
  refine h.imp ?_
  intro s t hst
  have : s.addrlo ≤ s.addrhi := by
    unfold Segment.addrhi
    omega
  omega

lemma inv_append_iff (K : List Segment) (t : Segment) :
    SegmentsInv (K ++ [t]) ↔ SegmentsInv K ∧ ∀ k ∈ K, k.addrhi < t.addrlo := by
  unfold SegmentsInv
  rw [List.pairwise_append]
  simp

lemma joinRev_all_gap (ks : List Segment) (m : Segment) (ow : Bool)
    (h : ∀ k ∈ ks, k.addrhi < m.addrlo) : joinRev ks m ow = .ok (ks, m) := by
  induction ks with
  | nil => rfl
  | cons k rest ih =>
    have hk := h k (by simp)
    have hlo : k.addrlo ≤ k.addrhi := by
      unfold Segment.addrhi
      omega
    have hmlo : m.addrlo ≤ m.addrhi := by
      unfold Segment.addrhi
      omega
    show (if compareSegments k m = .gap then _ else _) = _
    rw [if_pos (by
      unfold compareSegments
      rw [if_neg (by omega), if_neg (by omega)])]
    rw [ih (fun x hx => h x (by simp [hx]))]

lemma insertDisconnected_append (ks : List Segment) (m : Segment)
    (h : ∀ k ∈ ks, ¬ (m.addrlo < k.addrlo)) : insertDisconnected ks m = ks ++ [m] := by
  induction ks with
  | nil => rfl
  | cons k rest ih =>
    show (if m.addrlo < k.addrlo then _ else _) = _
    rw [if_neg (h k (by simp)), ih (fun x hx => h x (by simp [hx]))]
    rfl

lemma mergeAdj_ok (t c : Segment) (ht0 : 0 < t.size) (hc0 : 0 < c.size) (hcv : c.Valid)
    (hadj : t.addrhi = c.addrlo) :
    Segment.add t c false = .ok ⟨t.addrlo, t.data ++ c.data⟩ := by
  unfold Segment.size at ht0 hc0
  have hthi : t.addrhi = t.addrlo + t.data.length := rfl
  have hchi : c.addrhi = c.addrlo + c.data.length := rfl
  unfold Segment.Valid segAddrlast at hcv
  unfold Segment.add
  rw [if_neg (by
    unfold Segment.overlaps
    simp only [Bool.and_eq_true, decide_eq_true_eq, not_and, not_lt]
    omega)]
  rw [if_pos (by
    unfold Segment.isadjacent
    simp only [Bool.or_eq_true, decide_eq_true_eq]
    omega)]
  rw [if_pos (by omega)]
  unfold Segment.setData segAddrlast
  rw [if_neg (by
    simp only [List.length_append]
    omega)]

lemma addOne_fresh (L : List Segment) (c : Segment) (ow : Bool) (hc : 0 < c.size)
    (h : ∀ k ∈ L, k.addrhi < c.addrlo) : addOne L c ow = .ok (L ++ [c]) := by
  unfold addOne
  rw [if_neg (by omega)]
  simp only [joinRev_all_gap L.reverse c ow (fun k hk => h k (List.mem_reverse.mp hk))]
  rw [List.reverse_reverse]
  rw [insertDisconnected_append L c (fun k hk => by
    have := h k hk
    have hlo : k.addrlo ≤ k.addrhi := by
      unfold Segment.addrhi
      omega
    omega)]

lemma addOne_extend (K : List Segment) (t c : Segment) (ow : Bool)
    (ht0 : 0 < t.size) (hc0 : 0 < c.size) (hcv : c.Valid) (hadj : t.addrhi = c.addrlo)
    (hK : ∀ k ∈ K, k.addrhi < t.addrlo) (how : ow = false) :
    addOne (K ++ [t]) c ow = .ok (K ++ [⟨t.addrlo, t.data ++ c.data⟩]) := by
  subst how
  unfold addOne
  rw [if_neg (by omega)]
  have hlt : ∀ k ∈ K.reverse, k.addrhi < (⟨t.addrlo, t.data ++ c.data⟩ : Segment).addrlo := by
    intro k hk
    exact hK k (List.mem_reverse.mp hk)
  have hfull : joinRev ((K ++ [t]).reverse) c false
      = .ok (K.reverse, ⟨t.addrlo, t.data ++ c.data⟩) := by
    rw [List.reverse_append, List.reverse_singleton, List.singleton_append]
    show (if compareSegments t c = SegRel.gap then _ else _) = _
    rw [if_neg (by
      unfold compareSegments
      rw [if_pos (by
        right
        exact hadj.symm)]
      simp)]
    rw [mergeAdj_ok t c ht0 hc0 hcv hadj]
    exact joinRev_all_gap _ _ _ hlt
  simp only [hfull]
  rw [List.reverse_reverse]
  rw [insertDisconnected_append K _ (fun k hk => by
    have := hK k hk
    have hlo : k.addrlo ≤ k.addrhi := by
      unfold Segment.addrhi
      omega
    show ¬ ((⟨t.addrlo, t.data ++ c.data⟩ : Segment).addrlo < k.addrlo)
    have he2 : (⟨t.addrlo, t.data ++ c.data⟩ : Segment).addrlo = t.addrlo := rfl
    omega)]

lemma segmentsAdd_fresh (L : List Segment) (c : Segment) (ow : Bool) (hc : 0 < c.size)
    (hinv : SegmentsInv L) (h : ∀ k ∈ L, k.addrhi < c.addrlo) :
    Segments.add L [c] ow = .ok (L ++ [c]) := by
  unfold Segments.add addLoop
  rw [sortByAddr_id L (inv_pairwise_le L hinv)]
  simp only [addOne_fresh L c ow hc h]
  rfl

lemma segmentsAdd_extend (K : List Segment) (t c : Segment) (ow : Bool)
    (ht0 : 0 < t.size) (hc0 : 0 < c.size) (hcv : c.Valid) (hadj : t.addrhi = c.addrlo)
    (hinv : SegmentsInv (K ++ [t])) (how : ow = false) :
    Segments.add (K ++ [t]) [c] ow = .ok (K ++ [⟨t.addrlo, t.data ++ c.data⟩]) := by
  unfold Segments.add addLoop
  rw [sortByAddr_id _ (inv_pairwise_le _ hinv)]
  simp only [addOne_extend K t c ow ht0 hc0 hcv hadj ((inv_append_iff K t).mp hinv).2 how]
  rfl

lemma split_cons (s : Segment) (n : Nat) (hn : 0 < n) (hne : s.data ≠ []) :
    s.split n = ⟨s.addrlo, s.data.take n⟩
      :: (Segment.mk (s.addrlo + n) (s.data.drop n)).split n := by
  unfold Segment.split
  have hpos : 0 < s.size := List.length_pos.mpr hne
  rw [show (rangeStep s.size n) = rangeStep s.data.length n from rfl,
    rangeStep_eq _ _ hn (by exact hpos)]
  simp only [List.map_cons, List.drop_zero, Nat.add_zero, List.map_map]
  congr 1
  have hlen : (Segment.mk (s.addrlo + n) (s.data.drop n)).size = s.data.length - n := by
    unfold Segment.size
    exact s.data.length_drop n
  rw [hlen]
  apply List.map_congr_left
  intro j hj
  show Segment.mk (s.addrlo + (j + n)) ((s.data.drop (j + n)).take n)
      = Segment.mk (s.addrlo + n + j) (((s.data.drop n).drop j).take n)
  rw [List.drop_drop]
  congr 1
  · omega
  · congr 2
    omega

lemma split_nil_of_empty (s : Segment) (n : Nat) (hn : 0 < n) (hnil : s.data = []) :
    s.split n = [] := by
  unfold Segment.split rangeStep
  rw [show s.size = s.data.length from rfl, hnil]
  simp only [List.length_nil]
  rw [Nat.div_eq_of_lt (by omega)]
  rfl

lemma split_chain_aux : ∀ (m : Nat) (s : Segment) (n : Nat), 0 < n → s.data.length = m →
    IsChain s.addrlo (s.split n) := by
  intro m
  induction m using Nat.strong_induction_on with
  | _ m ih =>
    intro s n hn hm
    rcases Nat.eq_zero_or_pos s.data.length with h0 | hpos
    · rw [split_nil_of_empty s n hn (List.length_eq_zero.mp h0)]
      simp [IsChain]
    · have hne : s.data ≠ [] := by
        intro hc
        rw [hc] at hpos
        simp at hpos
      rw [split_cons s n hn hne]
      refine ⟨rfl, ?_, ?_⟩
      · simp only [List.length_take]
        omega
      · have hhi : (⟨s.addrlo, s.data.take n⟩ : Segment).addrhi
            = s.addrlo + min n s.data.length := by
          unfold Segment.addrhi
          simp [List.length_take]
        rcases le_or_lt s.data.length n with hle | hlt
        · have hdrop : (Segment.mk (s.addrlo + n) (s.data.drop n)).data = [] := by
            show s.data.drop n = []
            exact List.drop_eq_nil_of_le hle
          rw [split_nil_of_empty _ n hn hdrop]
          simp [IsChain]
        · have hmin : min n s.data.length = n := by omega
          rw [hhi, hmin]
          exact ih ((s.data.drop n).length)
            (by rw [s.data.length_drop n]; omega)
            (Segment.mk (s.addrlo + n) (s.data.drop n)) n hn rfl

lemma split_chain (s : Segment) (n : Nat) (hn : 0 < n) : IsChain s.addrlo (s.split n) :=
  split_chain_aux s.data.length s n hn rfl

lemma split_mem_spec (s : Segment) (n : Nat) (hn : 0 < n) (hv : s.Valid)
    (hb : ∀ b ∈ s.data, b < 256) :
    ∀ c ∈ s.split n, c.Valid ∧ 0 < c.data.length ∧ c.data.length ≤ n
      ∧ ∀ b ∈ c.data, b < 256 := by
  intro c hc
  unfold Segment.split at hc
  rcases List.mem_map.mp hc with ⟨off, hoff, rfl⟩
  unfold rangeStep at hoff
  rcases List.mem_map.mp hoff with ⟨i, hi, rfl⟩
  have hilt := List.mem_range.mp hi
  have hoffs : i * n < s.size := by
    have h1 : i + 1 ≤ (s.size + n - 1) / n := hilt
    have h2 : (i + 1) * n ≤ s.size + n - 1 := (Nat.le_div_iff_mul_le hn).mp h1
    have h3 : (i + 1) * n = i * n + n := by ring
    omega
  have hss : s.size = s.data.length := rfl
  unfold Segment.Valid segAddrlast at hv ⊢
  refine ⟨?_, ?_, ?_, ?_⟩
  · simp only [List.length_take, List.length_drop]
    omega
  · simp only [List.length_take, List.length_drop]
    omega
  · simp only [List.length_take, List.length_drop]
    omega
  · intro b hbc
    exact hb b (List.mem_of_mem_drop (List.mem_of_mem_take hbc))

lemma split_map_data (s : Segment) (n : Nat) (hn : 0 < n) :
    ((s.split n).map Segment.data).flatten = s.data := by
  have h1 : (s.split n).map Segment.data
      = (rangeStep s.data.length n).map (fun off => (s.data.drop off).take n) := by
    simp [Segment.split, List.map_map, Segment.size]
  rw [h1, chunks_flatten_aux s.data.length s.data n hn rfl]

lemma writeIhexData_append (cs1 cs2 : List Segment) (ext : Nat) :
    writeIhexData (cs1 ++ cs2) ext
      = writeIhexData cs1 ext ++ writeIhexData cs2 (ihexFinalExt cs1 ext) := by
  induction cs1 generalizing ext with
  | nil => rfl
  | cons c rest ih =>
    show writeIhexData (c :: (rest ++ cs2)) ext = _
    unfold writeIhexData
    dsimp only
    rw [ih (c.addrlo / 65536)]
    rw [show ihexFinalExt (c :: rest) ext = ihexFinalExt rest (c.addrlo / 65536) from rfl]
    simp only [List.append_assoc, List.cons_append]
    cases cs2 <;> rfl

lemma ihexFinalExt_append (cs1 cs2 : List Segment) (ext : Nat) :
    ihexFinalExt (cs1 ++ cs2) ext = ihexFinalExt cs2 (ihexFinalExt cs1 ext) := by
  induction cs1 generalizing ext with
  | nil => rfl
  | cons c rest ih =>
    show ihexFinalExt (rest ++ cs2) (c.addrlo / 65536)
        = ihexFinalExt cs2 (ihexFinalExt (c :: rest) ext)
    rw [show ihexFinalExt (c :: rest) ext = ihexFinalExt rest (c.addrlo / 65536) from rfl]
    exact ih (c.addrlo / 65536)

lemma readIhex_block (c : Segment) (L L' : List Segment) (sa : Option Nat)
    (hd : List (List Nat)) (ext0 : Nat) (rest : List (List Char))
    (hcv : c.Valid) (hc0 : 0 < c.size) (hd255 : c.data.length ≤ 255)
    (hb : ∀ b ∈ c.data, b < 256)
    (hadd : Segments.add L [⟨c.addrlo, c.data⟩] false = .ok L') :
    readIhexLoop false
      ((if ext0 ≠ c.addrlo / 65536 then [ihextext 4 0 (toBytesBE 2 (c.addrlo / 65536))]
        else []) ++ ihextext 0 (c.addrlo % 65536) c.data :: rest)
      (⟨L, sa, hd⟩, ext0 * 65536)
      = readIhexLoop false rest (⟨L', sa, hd⟩, (c.addrlo / 65536) * 65536) := by
  have hlo32 : c.addrlo < 2 ^ 32 := by
    unfold Segment.Valid segAddrlast at hcv
    unfold Segment.size at hc0
    omega
  have hhw : c.addrlo / 65536 < 65536 := by omega
  have hdata : ihexLineStep false (⟨L, sa, hd⟩, (c.addrlo / 65536) * 65536)
      (ihextext 0 (c.addrlo % 65536) c.data)
      = .ok (⟨L', sa, hd⟩, (c.addrlo / 65536) * 65536) :=
    ihexLineStep_data false ⟨L, sa, hd⟩ ((c.addrlo / 65536) * 65536) c L' hcv hc0 hd255 hb
      rfl hadd
  by_cases hx : ext0 = c.addrlo / 65536
  · rw [if_neg (by omega)]
    rw [List.nil_append]
    show (match ihexLineStep false (⟨L, sa, hd⟩, ext0 * 65536)
        (ihextext 0 (c.addrlo % 65536) c.data) with
      | .ok st2 => readIhexLoop false rest st2
      | .error e => Except.error e) = _
    rw [hx, hdata]
  · rw [if_pos hx]
    show (match ihexLineStep false (⟨L, sa, hd⟩, ext0 * 65536)
        (ihextext 4 0 (toBytesBE 2 (c.addrlo / 65536))) with
      | .ok st2 => readIhexLoop false
          (ihextext 0 (c.addrlo % 65536) c.data :: rest) st2
      | .error e => Except.error e) = _
    rw [ihexLineStep_ela false ⟨L, sa, hd⟩ (ext0 * 65536) (c.addrlo / 65536) hhw]
    show (match ihexLineStep false (⟨L, sa, hd⟩, c.addrlo / 65536 * 65536)
        (ihextext 0 (c.addrlo % 65536) c.data) with
      | .ok st2 => readIhexLoop false rest st2
      | .error e => Except.error e) = _
    rw [hdata]

lemma replayIhex_chunks : ∀ (cs : List Segment) (K : List Segment) (t : Segment)
    (sa : Option Nat) (hd : List (List Nat)) (ext : Nat),
    SegmentsInv (K ++ [t]) → 0 < t.size →
    IsChain t.addrhi cs →
    (∀ c ∈ cs, c.Valid ∧ 0 < c.data.length ∧ c.data.length ≤ 255 ∧ ∀ b ∈ c.data, b < 256) →
    readIhexLoop false (writeIhexData cs ext) (⟨K ++ [t], sa, hd⟩, ext * 65536)
      = .ok (⟨K ++ [⟨t.addrlo, t.data ++ (cs.map Segment.data).flatten⟩], sa, hd⟩,
          ihexFinalExt cs ext * 65536) := by
  intro cs
  induction cs with
  | nil =>
    intro K t sa hd ext hinv ht0 hchain hcs
    simp only [List.map_nil, List.flatten_nil, List.append_nil]
    rfl
  | cons c cs ih =>
    intro K t sa hd ext hinv ht0 hchain hcs
    obtain ⟨hclo, hc0, hchain2⟩ := hchain
    obtain ⟨hcv, hc0d, hc255, hcb⟩ := hcs c (by simp)
    show readIhexLoop false
        ((if ext ≠ c.addrlo / 65536 then [ihextext 4 0 (toBytesBE 2 (c.addrlo / 65536))]
          else []) ++ ihextext 0 (c.addrlo % 65536) c.data
            :: writeIhexData cs (c.addrlo / 65536))
        ((⟨K ++ [t], sa, hd⟩ : MemoryState), ext * 65536) = _
    have hadd : Segments.add (K ++ [t]) [⟨c.addrlo, c.data⟩] false
        = .ok (K ++ [⟨t.addrlo, t.data ++ c.data⟩]) := by
      have : Segments.add (K ++ [t]) [c] false
          = .ok (K ++ [⟨t.addrlo, t.data ++ c.data⟩]) :=
        segmentsAdd_extend K t c false ht0 (by exact hc0d) hcv hclo.symm hinv rfl
      exact this
    rw [readIhex_block c (K ++ [t]) (K ++ [⟨t.addrlo, t.data ++ c.data⟩]) sa hd ext
      (writeIhexData cs (c.addrlo / 65536)) hcv (by exact hc0d) hc255 hcb hadd]
    have hchain3 : IsChain (⟨t.addrlo, t.data ++ c.data⟩ : Segment).addrhi cs := by
      have he : (⟨t.addrlo, t.data ++ c.data⟩ : Segment).addrhi = c.addrhi := by
        unfold Segment.addrhi at *
        simp only [List.length_append]
        omega
      rw [he]
      exact hchain2
    have hinv2 : SegmentsInv (K ++ [⟨t.addrlo, t.data ++ c.data⟩]) := by
      rw [inv_append_iff] at hinv ⊢
      exact ⟨hinv.1, fun k hk => hinv.2 k hk⟩
    have ht02 : 0 < (⟨t.addrlo, t.data ++ c.data⟩ : Segment).size := by
      unfold Segment.size at *
      simp only [List.length_append]
      omega
    rw [ih K ⟨t.addrlo, t.data ++ c.data⟩ sa hd (c.addrlo / 65536) hinv2 ht02 hchain3
      (fun x hx => hcs x (by simp [hx]))]
    simp only [List.map_cons, List.flatten_cons, ihexFinalExt, List.append_assoc]

lemma replayIhex_one_segment (s : Segment) (n : Nat) (K : List Segment) (sa : Option Nat)
    (hd : List (List Nat)) (ext : Nat) (hn : 0 < n) (hn255 : n ≤ 255)
    (hv : s.Valid) (hs0 : 0 < s.size) (hb : ∀ b ∈ s.data, b < 256)
    (hinv : SegmentsInv K) (hK : ∀ k ∈ K, k.addrhi < s.addrlo) :
    readIhexLoop false (writeIhexData (s.split n) ext)
      ((⟨K, sa, hd⟩ : MemoryState), ext * 65536)
      = .ok (⟨K ++ [s], sa, hd⟩, ihexFinalExt (s.split n) ext * 65536) := by
  have hne : s.data ≠ [] := by
    unfold Segment.size at hs0
    intro hc
    rw [hc] at hs0
    simp at hs0
  have hsplit := split_cons s n hn hne
  have hchain := split_chain s n hn
  have hmem := split_mem_spec s n hn hv hb
  rw [hsplit] at hchain hmem ⊢
  obtain ⟨hc0lo, hc00, hchain2⟩ := hchain
  obtain ⟨hc0v, hc0d, hc0n, hc0b⟩ := hmem ⟨s.addrlo, s.data.take n⟩ (by simp)
  show readIhexLoop false
      ((if ext ≠ (⟨s.addrlo, s.data.take n⟩ : Segment).addrlo / 65536 then
          [ihextext 4 0 (toBytesBE 2 ((⟨s.addrlo, s.data.take n⟩ : Segment).addrlo / 65536))]
        else [])
        ++ ihextext 0 ((⟨s.addrlo, s.data.take n⟩ : Segment).addrlo % 65536)
            (⟨s.addrlo, s.data.take n⟩ : Segment).data
          :: writeIhexData ((Segment.mk (s.addrlo + n) (s.data.drop n)).split n)
              ((⟨s.addrlo, s.data.take n⟩ : Segment).addrlo / 65536))
      ((⟨K, sa, hd⟩ : MemoryState), ext * 65536) = _
  have hadd : Segments.add K [⟨s.addrlo, s.data.take n⟩] false
      = .ok (K ++ [⟨s.addrlo, s.data.take n⟩]) :=
    segmentsAdd_fresh K ⟨s.addrlo, s.data.take n⟩ false (by exact hc0d) hinv hK
  rw [readIhex_block ⟨s.addrlo, s.data.take n⟩ K (K ++ [⟨s.addrlo, s.data.take n⟩]) sa hd ext
    _ hc0v (by exact hc0d) (by omega) hc0b hadd]
  have hinv2 : SegmentsInv (K ++ [⟨s.addrlo, s.data.take n⟩]) := by
    rw [inv_append_iff]
    exact ⟨hinv, hK⟩
  rw [replayIhex_chunks _ K ⟨s.addrlo, s.data.take n⟩ sa hd _ hinv2 (by exact hc0d) hchain2
    (fun x hx =>
      have h := hmem x (by simp [hx])
      ⟨h.1, h.2.1, le_trans h.2.2.1 hn255, h.2.2.2⟩)]
  have hdata : (s.data.take n) ++ (((Segment.mk (s.addrlo + n)
      (s.data.drop n)).split n).map Segment.data).flatten = s.data := by
    have h1 := split_map_data s n hn
    rw [hsplit] at h1
    simpa using h1
  rw [show (⟨s.addrlo, s.data.take n⟩ : Segment).addrlo = s.addrlo from rfl]
  rw [hdata]
  rfl

lemma replayIhex_segments (n : Nat) (hn : 0 < n) (hn255 : n ≤ 255) :
    ∀ (segs K : List Segment) (sa : Option Nat) (hd : List (List Nat)) (ext : Nat),
    SegmentsInv (K ++ segs) →
    (∀ s ∈ segs, s.Valid ∧ 0 < s.size ∧ ∀ b ∈ s.data, b < 256) →
    readIhexLoop false (writeIhexData (segs.flatMap (fun s => s.split n)) ext)
      ((⟨K, sa, hd⟩ : MemoryState), ext * 65536)
      = .ok (⟨K ++ segs, sa, hd⟩,
          ihexFinalExt (segs.flatMap (fun s => s.split n)) ext * 65536) := by
  intro segs
  induction segs with
  | nil =>
    intro K sa hd ext hinv hsegs
    simp only [List.flatMap_nil, List.append_nil]
    rfl
  | cons s rest ih =>
    intro K sa hd ext hinv hsegs
    obtain ⟨hv, hs0, hb⟩ := hsegs s (by simp)
    rw [List.flatMap_cons, writeIhexData_append, readIhexLoop_append]
    have hKs : ∀ k ∈ K, k.addrhi < s.addrlo := by
      intro k hk
      unfold SegmentsInv at hinv
      rw [List.pairwise_append] at hinv
      exact hinv.2.2 k hk s (by simp)
    have hinvK : SegmentsInv K := by
      unfold SegmentsInv at hinv ⊢
      rw [List.pairwise_append] at hinv
      exact hinv.1
    simp only [replayIhex_one_segment s n K sa hd ext hn hn255 hv hs0 hb hinvK hKs]
    have hinv2 : SegmentsInv ((K ++ [s]) ++ rest) := by
      unfold SegmentsInv at hinv ⊢
      rw [List.append_assoc, List.singleton_append]
      exact hinv
    rw [ih (K ++ [s]) sa hd (ihexFinalExt (s.split n) ext) hinv2
      (fun x hx => hsegs x (by simp [hx]))]
    rw [ihexFinalExt_append]
    rw [List.append_assoc, List.singleton_append]

lemma roundtrip_ihex (m : MemoryState) (n : Nat) (hn : 0 < n) (hn255 : n ≤ 255)
    (hwf : MemWF m) :
    readIhex (writeIhex m n) false = .ok ⟨m.segments, m.start_address, []⟩ := by
  obtain ⟨hinv, hsegs, hstart, hh1, hh2⟩ := hwf
  have hseg2 : ∀ s ∈ m.segments, s.Valid ∧ 0 < s.size ∧ ∀ b ∈ s.data, b < 256 := by
    intro s hs
    obtain ⟨h1, h2, h3⟩ := hsegs s hs
    refine ⟨?_, h1, h3⟩
    unfold Segment.Valid segAddrlast
    omega
  have hdata := replayIhex_segments n hn hn255 m.segments [] none [] 0
    (by simpa using hinv) hseg2
  rw [List.nil_append] at hdata
  unfold writeIhex readIhex
  cases hsa : m.start_address with
  | none =>
    simp only [List.append_nil]
    rw [readIhexLoop_append]
    rw [show ((MemoryState.empty, 0) : MemoryState × Nat)
      = ((⟨[], none, []⟩ : MemoryState), 0 * 65536) from rfl]
    simp only [hdata]
    simp only [readIhexLoop]
    simp only [ihexLineStep_eof]
  | some sv =>
    have hsv : sv < 2 ^ 32 := by
      rw [hsa] at hstart
      simpa using hstart
    rw [readIhexLoop_append, readIhexLoop_append]
    rw [show ((MemoryState.empty, 0) : MemoryState × Nat)
      = ((⟨[], none, []⟩ : MemoryState), 0 * 65536) from rfl]
    simp only [hdata]
    simp only [readIhexLoop]
    simp only [ihexLineStep_start false _ _ sv hsv]
    simp only [ihexLineStep_eof]

lemma bitLen_le (n k : Nat) : bitLen n ≤ k ↔ n < 2 ^ k := by
  unfold bitLen
  split_ifs with h
  · subst h
    simp [Nat.pos_pow_of_pos]
  · rw [Nat.succ_le_iff]
    exact Nat.log2_lt h

lemma collAddrhi_mem : ∀ (l : List Segment), l ≠ [] → ∃ s ∈ l, collAddrhi l = s.addrhi
  | [], h => absurd rfl h
  | [b], _ => ⟨b, by simp, rfl⟩
  | b :: c :: tl, _ => by
    obtain ⟨s, hs, he⟩ := collAddrhi_mem (c :: tl) (by simp)
    refine ⟨s, by simp [List.mem_cons] at hs ⊢; tauto, ?_⟩
    rw [show collAddrhi (b :: c :: tl) = collAddrhi (c :: tl) by
      simp [collAddrhi, List.getLast?_cons_cons]]
    exact he

lemma collAddrhi_cons (a : Segment) (ls : List Segment) (h : ls ≠ []) :
    collAddrhi (a :: ls) = collAddrhi ls := by
  cases ls with
  | nil => exact absurd rfl h
  | cons b tl => simp [collAddrhi, List.getLast?_cons_cons]

lemma collAddrhi_bound (l : List Segment) (hinv : SegmentsInv l) :
    ∀ s ∈ l, s.addrhi ≤ collAddrhi l := by
  induction l with
  | nil => simp
  | cons a ls ih =>
    intro s hs
    unfold SegmentsInv at hinv
    rw [List.pairwise_cons] at hinv
    by_cases hls : ls = []
    · subst hls
      rcases List.mem_cons.mp hs with rfl | hs2
      · simp [collAddrhi]
      · cases hs2
    · rw [collAddrhi_cons a ls hls]
      rcases List.mem_cons.mp hs with rfl | hs2
      · obtain ⟨m, hm, he⟩ := collAddrhi_mem ls hls
        have h1 := hinv.1 m hm
        have h3 : m.addrlo ≤ m.addrhi := by
          unfold Segment.addrhi
          omega
        omega
      · exact ih hinv.2 s hs2

lemma split_addr_bound (s : Segment) (n : Nat) (hn : 0 < n) :
    ∀ c ∈ s.split n, s.addrlo ≤ c.addrlo ∧ c.addrlo < s.addrhi := by
  intro c hc
  unfold Segment.split at hc
  rcases List.mem_map.mp hc with ⟨off, hoff, rfl⟩
  unfold rangeStep at hoff
  rcases List.mem_map.mp hoff with ⟨i, hi, rfl⟩
  have hilt := List.mem_range.mp hi
  have hoffs : i * n < s.size := by
    have h1 : i + 1 ≤ (s.size + n - 1) / n := hilt
    have h2 : (i + 1) * n ≤ s.size + n - 1 := (Nat.le_div_iff_mul_le hn).mp h1
    have h3 : (i + 1) * n = i * n + n := by ring
    omega
  have hss : s.size = s.data.length := rfl
  refine ⟨?_, ?_⟩
  · show s.addrlo ≤ s.addrlo + i * n
    omega
  · show s.addrlo + i * n < s.addrhi
    unfold Segment.addrhi
    omega

lemma replaySrec_chunks : ∀ (cs : List Segment) (K : List Segment) (t : Segment)
    (r : Nat) (sa : Option Nat) (hd : List (List Nat)),
    (r = 1 ∨ r = 2 ∨ r = 3) →
    SegmentsInv (K ++ [t]) → 0 < t.size →
    IsChain t.addrhi cs →
    (∀ c ∈ cs, c.Valid ∧ 0 < c.data.length
      ∧ srecAddressLength r + c.data.length + 1 ≤ 255
      ∧ c.addrlo < 256 ^ srecAddressLength r
      ∧ ∀ b ∈ c.data, b < 256) →
    readSrecLoop false (cs.map (fun c => srectext r c.addrlo c.data))
        ⟨K ++ [t], sa, hd⟩
      = .ok ⟨K ++ [⟨t.addrlo, t.data ++ (cs.map Segment.data).flatten⟩], sa, hd⟩ := by
  intro cs
  induction cs with
  | nil =>
    intro K t r sa hd hr hinv ht0 hchain hcs
    simp only [List.map_nil, List.flatten_nil, List.append_nil]
    rfl
  | cons c cs ih =>
    intro K t r sa hd hr hinv ht0 hchain hcs
    obtain ⟨hclo, hc0, hchain2⟩ := hchain
    obtain ⟨hcv, hc0d, hcnt, haddr, hcb⟩ := hcs c (by simp)
    simp only [List.map_cons]
    simp only [readSrecLoop]
    have hadd : Segments.add (K ++ [t]) [⟨c.addrlo, c.data⟩] false
        = .ok (K ++ [⟨t.addrlo, t.data ++ c.data⟩]) :=
      segmentsAdd_extend K t c false ht0 (by exact hc0d) hcv hclo.symm hinv rfl
    simp only [srecLineStep_data false ⟨K ++ [t], sa, hd⟩ r c
      (K ++ [⟨t.addrlo, t.data ++ c.data⟩]) hr hcv (by exact hc0d) hcb haddr hcnt hadd]
    have hchain3 : IsChain (⟨t.addrlo, t.data ++ c.data⟩ : Segment).addrhi cs := by
      have he : (⟨t.addrlo, t.data ++ c.data⟩ : Segment).addrhi = c.addrhi := by
        unfold Segment.addrhi at *
        simp only [List.length_append]
        omega
      rw [he]
      exact hchain2
    have hinv2 : SegmentsInv (K ++ [⟨t.addrlo, t.data ++ c.data⟩]) := by
      rw [inv_append_iff] at hinv ⊢
      exact ⟨hinv.1, fun k hk => hinv.2 k hk⟩
    have ht02 : 0 < (⟨t.addrlo, t.data ++ c.data⟩ : Segment).size := by
      unfold Segment.size at *
      simp only [List.length_append]
      omega
    rw [ih K ⟨t.addrlo, t.data ++ c.data⟩ r sa hd hr hinv2 ht02 hchain3
      (fun x hx => hcs x (by simp [hx]))]
    simp only [List.map_cons, List.flatten_cons, List.append_assoc]

lemma replaySrec_one_segment (s : Segment) (n : Nat) (K : List Segment) (r : Nat)
    (sa : Option Nat) (hd : List (List Nat)) (hn : 0 < n)
    (hr : r = 1 ∨ r = 2 ∨ r = 3)
    (hcnt : srecAddressLength r + n + 1 ≤ 255)
    (haddr : s.addrhi ≤ 256 ^ srecAddressLength r)
    (hv : s.Valid) (hs0 : 0 < s.size) (hb : ∀ b ∈ s.data, b < 256)
    (hinv : SegmentsInv K) (hK : ∀ k ∈ K, k.addrhi < s.addrlo) :
    readSrecLoop false ((s.split n).map (fun c => srectext r c.addrlo c.data))
        (⟨K, sa, hd⟩ : MemoryState)
      = .ok ⟨K ++ [s], sa, hd⟩ := by
  have hne : s.data ≠ [] := by
    unfold Segment.size at hs0
    intro hc
    rw [hc] at hs0
    simp at hs0
  have hsplit := split_cons s n hn hne
  have hchain := split_chain s n hn
  have hmem := split_mem_spec s n hn hv hb
  have habnd := split_addr_bound s n hn
  have hcsfacts : ∀ c ∈ s.split n, c.Valid ∧ 0 < c.data.length
      ∧ srecAddressLength r + c.data.length + 1 ≤ 255
      ∧ c.addrlo < 256 ^ srecAddressLength r
      ∧ ∀ b ∈ c.data, b < 256 := by
    intro c hc
    obtain ⟨h1, h2, h3, h4⟩ := hmem c hc
    obtain ⟨h5, h6⟩ := habnd c hc
    exact ⟨h1, h2, by omega, by omega, h4⟩
  rw [hsplit] at hchain hcsfacts ⊢
  obtain ⟨hc0lo, hc00, hchain2⟩ := hchain
  obtain ⟨hc0v, hc0d, hc0cnt, hc0a, hc0b⟩ := hcsfacts ⟨s.addrlo, s.data.take n⟩ (by simp)
  simp only [List.map_cons]
  simp only [readSrecLoop]
  have hadd : Segments.add K [⟨s.addrlo, s.data.take n⟩] false
      = .ok (K ++ [⟨s.addrlo, s.data.take n⟩]) :=
    segmentsAdd_fresh K ⟨s.addrlo, s.data.take n⟩ false (by exact hc0d) hinv hK
  simp only [srecLineStep_data false ⟨K, sa, hd⟩ r ⟨s.addrlo, s.data.take n⟩
    (K ++ [⟨s.addrlo, s.data.take n⟩]) hr hc0v (by exact hc0d) hc0b hc0a hc0cnt hadd]
  have hinv2 : SegmentsInv (K ++ [⟨s.addrlo, s.data.take n⟩]) := by
    rw [inv_append_iff]
    exact ⟨hinv, hK⟩
  rw [replaySrec_chunks _ K ⟨s.addrlo, s.data.take n⟩ r sa hd hr hinv2 (by exact hc0d)
    hchain2 (fun x hx => hcsfacts x (by simp [hx]))]
  have hdata : (s.data.take n) ++ (((Segment.mk (s.addrlo + n)
      (s.data.drop n)).split n).map Segment.data).flatten = s.data := by
    have h1 := split_map_data s n hn
    rw [hsplit] at h1
    simpa using h1
  rw [show (⟨s.addrlo, s.data.take n⟩ : Segment).addrlo = s.addrlo from rfl]
  rw [hdata]

lemma replaySrec_segments (n : Nat) (r : Nat) (hn : 0 < n)
    (hr : r = 1 ∨ r = 2 ∨ r = 3) (hcnt : srecAddressLength r + n + 1 ≤ 255) :
    ∀ (segs K : List Segment) (sa : Option Nat) (hd : List (List Nat)),
    SegmentsInv (K ++ segs) →
    (∀ s ∈ segs, s.Valid ∧ 0 < s.size ∧ s.addrhi ≤ 256 ^ srecAddressLength r
      ∧ ∀ b ∈ s.data, b < 256) →
    readSrecLoop false ((segs.flatMap (fun s => s.split n)).map
        (fun c => srectext r c.addrlo c.data))
        ((⟨K, sa, hd⟩ : MemoryState))
      = .ok ⟨K ++ segs, sa, hd⟩ := by
  intro segs
  induction segs with
  | nil =>
    intro K sa hd hinv hsegs
    simp only [List.flatMap_nil, List.append_nil]
    rfl
  | cons s rest ih =>
    intro K sa hd hinv hsegs
    obtain ⟨hv, hs0, hhi, hb⟩ := hsegs s (by simp)
    rw [List.flatMap_cons, List.map_append, readSrecLoop_append]
    have hKs : ∀ k ∈ K, k.addrhi < s.addrlo := by
      intro k hk
      unfold SegmentsInv at hinv
      rw [List.pairwise_append] at hinv
      exact hinv.2.2 k hk s (by simp)
    have hinvK : SegmentsInv K := by
      unfold SegmentsInv at hinv ⊢
      rw [List.pairwise_append] at hinv
      exact hinv.1
    simp only [replaySrec_one_segment s n K r sa hd hn hr hcnt hhi hv hs0 hb hinvK hKs]
    have hinv2 : SegmentsInv ((K ++ [s]) ++ rest) := by
      unfold SegmentsInv at hinv ⊢
      rw [List.append_assoc, List.singleton_append]
      exact hinv
    rw [ih (K ++ [s]) sa hd hinv2 (fun x hx => hsegs x (by simp [hx]))]
    rw [List.append_assoc, List.singleton_append]

lemma readSrec_assembled (m : MemoryState) (n r : Nat) (hn : 0 < n)
    (hr : r = 1 ∨ r = 2 ∨ r = 3)
    (hcnt : srecAddressLength r + n + 1 ≤ 255)
    (hinv : SegmentsInv m.segments)
    (hsegs : ∀ s ∈ m.segments, 0 < s.data.length ∧ s.addrlo + s.data.length ≤ 2 ^ 32
      ∧ ∀ b ∈ s.data, b < 256)
    (hhi : ∀ s ∈ m.segments, s.addrhi ≤ 256 ^ srecAddressLength r)
    (hsv : ∀ sv, m.start_address = some sv → sv < 256 ^ srecAddressLength (10 - r))
    (hh1 : (headerJoined m).length + 3 ≤ 255) (hh2 : ∀ b ∈ headerJoined m, b < 256) :
    readSrecLoop false
      ((if m.header ≠ [] then [srectext 0 0 (headerJoined m)] else [])
        ++ ((m.segments.flatMap (fun seg => seg.split n)).map
            (fun c => srectext r c.addrlo c.data))
        ++ (match m.start_address with
            | some s => [srectext (10 - r) s []]
            | none => []))
      MemoryState.empty
      = .ok ⟨m.segments, m.start_address,
          if m.header = [] then [] else [headerJoined m]⟩ := by
  have hsegs2 : ∀ s ∈ m.segments, s.Valid ∧ 0 < s.size
      ∧ s.addrhi ≤ 256 ^ srecAddressLength r ∧ ∀ b ∈ s.data, b < 256 := by
    intro s hs
    obtain ⟨h1, h2, h3⟩ := hsegs s hs
    refine ⟨?_, h1, hhi s hs, h3⟩
    unfold Segment.Valid segAddrlast
    omega
  rw [readSrecLoop_append, readSrecLoop_append]
  have h0 : readSrecLoop false
      (if m.header ≠ [] then [srectext 0 0 (headerJoined m)] else [])
      MemoryState.empty
      = .ok ⟨[], none, if m.header = [] then [] else [headerJoined m]⟩ := by
    by_cases hhd : m.header = []
    · rw [if_neg (by simp [hhd]), if_pos hhd]
      rfl
    · rw [if_pos hhd, if_neg hhd]
      simp only [readSrecLoop]
      rw [show MemoryState.empty = (⟨[], none, []⟩ : MemoryState) from rfl]
      simp only [srecLineStep_header false ⟨[], none, []⟩ (headerJoined m)
        (by omega) hh2]
  simp only [h0]
  have h1 := replaySrec_segments n r hn hr hcnt m.segments [] none
    (if m.header = [] then [] else [headerJoined m]) (by simpa using hinv) hsegs2
  rw [List.nil_append] at h1
  simp only [h1]
  cases hsa : m.start_address with
  | none => rfl
  | some sv =>
    simp only [readSrecLoop]
    simp only [srecLineStep_start false
      ⟨m.segments, none, if m.header = [] then [] else [headerJoined m]⟩ r sv hr
      (hsv sv hsa)]

lemma roundtrip_srec (m : MemoryState) (n : Nat) (hn : 0 < n) (hn250 : n ≤ 250)
    (hwf : MemWF m) :
    readSrec (writeSrec m n false) false
      = .ok ⟨m.segments, m.start_address,
          if m.header = [] then [] else [headerJoined m]⟩ := by
  obtain ⟨hinv, hsegs, hstart, hh1, hh2⟩ := hwf
  have hch : collAddrhi m.segments
      < 2 ^ max (bitLen (collAddrhi m.segments))
          (bitLen (match m.start_address with | some s => s | none => 0)) :=
    (bitLen_le _ _).mp (le_max_left _ _)
  have hsb : (match m.start_address with | some s => s | none => 0)
      < 2 ^ max (bitLen (collAddrhi m.segments))
          (bitLen (match m.start_address with | some s => s | none => 0)) :=
    (bitLen_le _ _).mp (le_max_right _ _)
  unfold readSrec writeSrec
  dsimp only
  rw [if_neg (show ¬((false : Bool) = true) by decide)]
  rw [List.append_nil]
  by_cases h16 : max (bitLen (collAddrhi m.segments))
      (bitLen (match m.start_address with | some s => s | none => 0)) ≤ 16
  · have hp : (2 : Nat) ^ max (bitLen (collAddrhi m.segments))
        (bitLen (match m.start_address with | some s => s | none => 0)) ≤ 2 ^ 16 :=
      Nat.pow_le_pow_right (by norm_num) h16
    simp only [if_pos h16]
    rw [readSrec_assembled m n 1 hn (by omega)
      (by show 2 + n + 1 ≤ 255; omega) hinv hsegs
      (fun s hs => by
        have hb := collAddrhi_bound m.segments hinv s hs
        show s.addrhi ≤ 256 ^ 2
        norm_num
        omega)
      (fun sv hsa => by
        have hmv : (match m.start_address with | some s => s | none => 0) = sv := by
          rw [hsa]
        show sv < 256 ^ 2
        norm_num
        omega)
      hh1 hh2]
  · by_cases h24 : max (bitLen (collAddrhi m.segments))
        (bitLen (match m.start_address with | some s => s | none => 0)) ≤ 24
    · have hp : (2 : Nat) ^ max (bitLen (collAddrhi m.segments))
          (bitLen (match m.start_address with | some s => s | none => 0)) ≤ 2 ^ 24 :=
        Nat.pow_le_pow_right (by norm_num) h24
      simp only [if_neg h16, if_pos h24]
      rw [readSrec_assembled m n 2 hn (by omega)
        (by show 3 + n + 1 ≤ 255; omega) hinv hsegs
        (fun s hs => by
          have hb := collAddrhi_bound m.segments hinv s hs
          show s.addrhi ≤ 256 ^ 3
          norm_num
          omega)
        (fun sv hsa => by
          have hmv : (match m.start_address with | some s => s | none => 0) = sv := by
            rw [hsa]
          show sv < 256 ^ 3
          norm_num
          omega)
        hh1 hh2]
    · simp only [if_neg h16, if_neg h24]
      rw [readSrec_assembled m n 3 hn (by omega)
        (by show 4 + n + 1 ≤ 255; omega) hinv hsegs
        (fun s hs => by
          obtain ⟨hg1, hg2, hg3⟩ := hsegs s hs
          show s.addrhi ≤ 256 ^ 4
          unfold Segment.addrhi
          norm_num
          omega)
        (fun sv hsa => by
          rw [hsa] at hstart
          show sv < 256 ^ 4
          norm_num
          simpa using hstart)
        hh1 hh2]

/-- Claim C3: for any memory image whose segments satisfy the collection
invariant, whose addresses and start address fit the 32-bit space, and whose
header fits one S0 record, writing Intel Hex text and reading it back restores
the same segment list (same base addresses and bytes) and the same
start_address (including none), and writing Motorola S text (default record
count option) and reading it back likewise restores the segments and the
start_address. -/
theorem write_read_roundtrip (m : MemoryState) (n : Nat) (hn : 0 < n)
    (hn250 : n ≤ 250) (hwf : MemWF m) :
    readIhex (writeIhex m n) false = .ok ⟨m.segments, m.start_address, []⟩
    ∧ readSrec (writeSrec m n false) false
        = .ok ⟨m.segments, m.start_address,
            if m.header = [] then [] else [headerJoined m]⟩ :=
  ⟨roundtrip_ihex m n hn (by omega) hwf, roundtrip_srec m n hn hn250 hwf⟩

theorem write_read_roundtrip_witness :
    (0 < 16 ∧ 16 ≤ 250
      ∧ MemWF ⟨[⟨4660, [1, 2, 3]⟩, ⟨100000, [7]⟩], some 5, [[72, 105]]⟩)
    ∧ readIhex (writeIhex ⟨[⟨4660, [1, 2, 3]⟩, ⟨100000, [7]⟩], some 5,
          [[72, 105]]⟩ 16) false
        = .ok ⟨[⟨4660, [1, 2, 3]⟩, ⟨100000, [7]⟩], some 5, []⟩
    ∧ readSrec (writeSrec ⟨[⟨4660, [1, 2, 3]⟩, ⟨100000, [7]⟩], some 5,
          [[72, 105]]⟩ 16 false) false
        = .ok ⟨[⟨4660, [1, 2, 3]⟩, ⟨100000, [7]⟩], some 5, [[72, 105]]⟩ := by
  have h := write_read_roundtrip
    ⟨[⟨4660, [1, 2, 3]⟩, ⟨100000, [7]⟩], some 5, [[72, 105]]⟩ 16
    (by decide) (by decide) (by decide)
  exact ⟨⟨by decide, by decide, by decide⟩, h.1, by simpa [headerJoined] using h.2⟩
end Hex
